import Mathlib

/-!
Verification of the section-tree hierarchy model of the bukva-you platform:
the server-side `buildSectionsTree` assembly with its root/child assignment and
`(orderIndex, id)` sibling sort, the client-side `flattenSections` pre-order
rendering, and the section CRUD endpoints (tree fetch, child list, patch,
soft delete).
-/

namespace BukvaYou

/-- A persisted `sections` row, as fetched by
`SELECT id, name, parent_id, order_index, is_active, created_at, updated_at`.
`is_active` is the raw SQLite integer (the application writes only 0 or 1). -/
structure Row where
  id : Int
  name : String
  parent_id : Option Int
  order_index : Int
  is_active : Int
  created_at : String
  updated_at : String
  deriving DecidableEq

/-- A node of the materialized forest: the JSON shape
`{ id, name, parentId, orderIndex, isActive, children }` that
`buildSectionsTree` returns and the client traverses. -/
inductive SectionNode : Type where
  | mk (id : Int) (name : String) (parentId : Option Int) (orderIndex : Int)
      (isActive : Bool) (children : List SectionNode) : SectionNode

def SectionNode.id : SectionNode → Int
  | .mk i _ _ _ _ _ => i

def SectionNode.name : SectionNode → String
  | .mk _ nm _ _ _ _ => nm

def SectionNode.parentId : SectionNode → Option Int
  | .mk _ _ p _ _ _ => p

def SectionNode.orderIndex : SectionNode → Int
  | .mk _ _ _ o _ _ => o

def SectionNode.isActive : SectionNode → Bool
  | .mk _ _ _ _ a _ => a

def SectionNode.children : SectionNode → List SectionNode
  | .mk _ _ _ _ _ c => c

/-- An entry pushed by the client's `flattenSections`:
`{ id, name, isActive }` (the name carries the indent). -/
structure SectionEntry where
  id : Int
  name : String
  isActive : Bool
  deriving DecidableEq

/-- The indent `"  ".repeat(depth)`: two spaces per depth level. -/
def indentStr (depth : Nat) : String :=
  String.join (List.replicate depth "  ")

/-- The client's `flattenSections(nodes, depth, result)`: for each node push
`{ id, name: "  ".repeat(depth) + name, isActive }` onto `result`, then recurse
into its children at `depth + 1`. -/
def flattenSections : List SectionNode → Nat → List SectionEntry → List SectionEntry
  | [], _, result => result
  | .mk i nm _ _ act children :: rest, depth, result =>
      flattenSections rest depth
        (flattenSections children (depth + 1)
          (result ++ [⟨i, indentStr depth ++ nm, act⟩]))

/-- The call `flattenSections(nodes)` with the JavaScript default arguments
`depth = 0`, `result = []`. -/
def flattenSectionsMain (nodes : List SectionNode) : List SectionEntry :=
  flattenSections nodes 0 []

/-- A flatten entry as the spec describes it, with an explicit `depth` field. -/
structure FlatEntry where
  id : Int
  name : String
  isActive : Bool
  depth : Nat
  deriving DecidableEq

/-- Modelled from the spec: `flatten(forest)` as a pre-order traversal (visit
node, then children in sibling order) emitting `{id, name, isActive, depth}`
with the name prefixed by two spaces per depth level. Used as the reference
against which `flattenSections` is compared. -/
def flattenSpec : List SectionNode → Nat → List FlatEntry
  | [], _ => []
  | .mk i nm _ _ act children :: rest, depth =>
      ⟨i, indentStr depth ++ nm, act, depth⟩ ::
        (flattenSpec children (depth + 1) ++ flattenSpec rest depth)

/-- Forget the `depth` field of a spec-level flatten entry. -/
def FlatEntry.dropDepth (e : FlatEntry) : SectionEntry :=
  ⟨e.id, e.name, e.isActive⟩

theorem flattenSections_eq_spec (nodes : List SectionNode) (depth : Nat)
    (result : List SectionEntry) :
    flattenSections nodes depth result =
      result ++ (flattenSpec nodes depth).map FlatEntry.dropDepth := by
  induction nodes, depth, result using flattenSections.induct with
  | case1 depth result => simp [flattenSections, flattenSpec]
  | case2 i nm p o act children rest depth result ih1 ih2 =>
      rw [flattenSections, ih2, ih1, flattenSpec]
      simp [FlatEntry.dropDepth]

/-! ## Server side: `buildSectionsTree` (rows → forest) -/

/-- The in-memory node objects `buildSectionsTree` creates before linking:
`{ id, name, parentId, orderIndex, isActive: Boolean(is_active) }`. -/
structure TNode where
  id : Int
  name : String
  parentId : Option Int
  orderIndex : Int
  isActive : Bool
  deriving DecidableEq

/-- The per-row node construction of `buildSectionsTree`. -/
def rowToNode (r : Row) : TNode :=
  ⟨r.id, r.name, r.parent_id, r.order_index, r.is_active != 0⟩

/-- A JavaScript `Map` keyed by `Int`, as an insertion-ordered association
list. `set` on an existing key replaces the value in place (keeping the
original insertion position); on a fresh key it appends. -/
def mapSet (m : List (Int × TNode)) (k : Int) (v : TNode) : List (Int × TNode) :=
  if m.any (fun p => p.1 == k) then
    m.map (fun p => if p.1 == k then (k, v) else p)
  else m ++ [(k, v)]

/-- The lookup `byId.has(k)`. -/
def mapHas (m : List (Int × TNode)) (k : Int) : Bool :=
  m.any (fun p => p.1 == k)

/-- The lookup `byId.get(k)`. -/
def mapGet (m : List (Int × TNode)) (k : Int) : Option TNode :=
  (m.find? (fun p => p.1 == k)).map Prod.snd

/-- The first pass of `buildSectionsTree`: index every row by `id`. -/
def buildIndex (rows : List Row) : List (Int × TNode) :=
  rows.foldl (fun m r => mapSet m r.id (rowToNode r)) []

/-- One step of the `byId.forEach` assignment pass: push the node's id onto
`roots` when its `parentId` is null or absent from the index, else append it to
its parent's children list. The state is `(roots, children lists keyed by
parent id)`. -/
def assignStep (idx : List (Int × TNode)) (st : List Int × List (Int × List Int))
    (e : Int × TNode) : List Int × List (Int × List Int) :=
  match e.2.parentId with
  | none => (st.1 ++ [e.1], st.2)
  | some pid =>
      if mapHas idx pid then
        (st.1, st.2.map (fun q => if q.1 == pid then (q.1, q.2 ++ [e.1]) else q))
      else (st.1 ++ [e.1], st.2)

/-- The full assignment pass over the index, starting from empty `roots` and an
empty children list per indexed node (each node is created with
`children: []`). -/
def assignAll (idx : List (Int × TNode)) : List Int × List (Int × List Int) :=
  idx.foldl (assignStep idx) ([], idx.map (fun p => (p.1, [])))

/-- The children ids recorded for parent `p` by the assignment pass. -/
def childIdsOf (cs : List (Int × List Int)) (p : Int) : List Int :=
  match cs.find? (fun q => q.1 == p) with
  | some q => q.2
  | none => []

/-- The sort comparator `(a, b) => a.orderIndex - b.orderIndex || a.id - b.id`
of `sortNodes`, as the corresponding total boolean order on nodes. -/
def nodeLE (a b : TNode) : Bool :=
  decide (a.orderIndex < b.orderIndex ∨ (a.orderIndex = b.orderIndex ∧ a.id ≤ b.id))

/-- The `(orderIndex, id)` sort key of an indexed id (a default for ids absent
from the index, which `sortNodes` never compares). -/
def keyOf (idx : List (Int × TNode)) (i : Int) : Int × Int :=
  match mapGet idx i with
  | some nd => (nd.orderIndex, nd.id)
  | none => (0, i)

/-- Lexicographic order on sort keys. -/
def pairLE (a b : Int × Int) : Bool :=
  decide (a.1 < b.1 ∨ (a.1 = b.1 ∧ a.2 ≤ b.2))

/-- The comparator `nodeLE` lifted to ids through the index: the order `sortNodes` realizes on
the id lists of the assignment state. -/
def keyLE (idx : List (Int × TNode)) (a b : Int) : Bool :=
  pairLE (keyOf idx a) (keyOf idx b)

/-- The comparator `keyLE` as a decidable relation. -/
def keyLEP (idx : List (Int × TNode)) (a b : Int) : Prop :=
  keyLE idx a b = true

instance (idx : List (Int × TNode)) : DecidableRel (keyLEP idx) := fun a b => by
  unfold keyLEP
  infer_instance

/-- The JavaScript `Array.sort` with the `sortNodes` comparator. The comparator
is a total preorder, and the id lists sorted by `buildSectionsTree` carry
distinct ids (keys of the index), on which the order is total and
antisymmetric; any sorting algorithm then yields the same, unique sorted
permutation, modelled here by insertion sort. -/
def sortIds (idx : List (Int × TNode)) (l : List Int) : List Int :=
  List.insertionSort (keyLEP idx) l

/-- Materialize the object graph reachable from id `i` after assignment and
`sortNodes`: the node's fields from the index, its children sorted by
`(orderIndex, id)` and materialized recursively. `fuel` bounds the recursion
depth; `buildSectionsTree` passes the index size, which suffices for every
reachable node (proved below). -/
def buildNode (idx : List (Int × TNode)) (cs : List (Int × List Int)) :
    Nat → Int → SectionNode
  | 0, i =>
      match mapGet idx i with
      | some nd => .mk nd.id nd.name nd.parentId nd.orderIndex nd.isActive []
      | none => .mk i "" none 0 false []
  | fuel + 1, i =>
      match mapGet idx i with
      | some nd =>
          .mk nd.id nd.name nd.parentId nd.orderIndex nd.isActive
            ((sortIds idx (childIdsOf cs i)).map (buildNode idx cs fuel))
      | none => .mk i "" none 0 false []

/-- The server tree builder `buildSectionsTree(rows)`: index the rows, assign roots and children in one
pass, sort every sibling list by `(orderIndex, id)`, and return the forest of
root nodes. -/
def buildSectionsTree (rows : List Row) : List SectionNode :=
  (sortIds (buildIndex rows) (assignAll (buildIndex rows)).1).map
    (buildNode (buildIndex rows) (assignAll (buildIndex rows)).2 (buildIndex rows).length)

/-- The resolved parent of an indexed node: `some p` exactly when its
`parentId` is non-null and present in the index (the node is then appended to
`p`'s children); `none` when the node is pushed to `roots` (or `x` is not a
key). -/
def rp (idx : List (Int × TNode)) (x : Int) : Option Int :=
  match mapGet idx x with
  | some nd =>
      match nd.parentId with
      | some pid => if mapHas idx pid then some pid else none
      | none => none
  | none => none

/-- Iterate the resolved-parent map `n` times from `x`. -/
def rpIter (idx : List (Int × TNode)) : Nat → Int → Option Int
  | 0, x => some x
  | n + 1, x =>
      match rp idx x with
      | none => none
      | some p => rpIter idx n p

/-- The parent chain from `x` terminates: it reaches a node with no resolved
parent (a root) in finitely many steps. -/
def TermChain (idx : List (Int × TNode)) (x : Int) : Prop :=
  ∃ n, rpIter idx n x = none

/-- Reachability from the roots through the children lists produced by the
assignment pass. -/
inductive ReachF (roots : List Int) (cs : List (Int × List Int)) : Int → Prop where
  | root {x : Int} : x ∈ roots → ReachF roots cs x
  | child {p x : Int} : ReachF roots cs p → x ∈ childIdsOf cs p → ReachF roots cs x

/-- All node ids of a materialized forest, in pre-order. -/
def forestIds : List SectionNode → List Int
  | [] => []
  | .mk i _ _ _ _ children :: rest => i :: (forestIds children ++ forestIds rest)

/-- Strict `(orderIndex, id)` order on materialized nodes. -/
def keyLT (a b : SectionNode) : Prop :=
  a.orderIndex < b.orderIndex ∨ (a.orderIndex = b.orderIndex ∧ a.id < b.id)

/-- Every sibling list of the forest — the root group and, recursively, every
node's children list — is strictly increasing in `(orderIndex, id)`. -/
def ForestSorted : List SectionNode → Prop
  | [] => True
  | .mk i nm p o act children :: rest =>
      (∀ b ∈ rest, keyLT (.mk i nm p o act children) b) ∧
        ForestSorted children ∧ ForestSorted rest

/-- The root/child decision `assignStep` makes for an index entry, read off the
entry itself. For entries of a `KeysOK` index this is `rp` at the entry's
key. -/
def rpE (idx : List (Int × TNode)) (e : Int × TNode) : Option Int :=
  match e.2.parentId with
  | some pid => if mapHas idx pid then some pid else none
  | none => none

/-! ## Endpoint and mutation models -/

/-- The spec's `buildTree(rows, includeInactive)`: with `includeInactive =
false` the SQL filter `WHERE is_active = 1` removes inactive rows before tree
assembly (`GET /api/sections/tree`). -/
def buildTree (rows : List Row) (includeInactive : Bool) : List SectionNode :=
  buildSectionsTree (if includeInactive then rows else rows.filter (fun r => r.is_active == 1))

/-- The SQL `ORDER BY order_index, id` used by the section queries. -/
def rowLE (a b : Row) : Bool :=
  decide (a.order_index < b.order_index ∨ (a.order_index = b.order_index ∧ a.id ≤ b.id))

/-- The order `rowLE` as a decidable relation. -/
def rowLEP (a b : Row) : Prop :=
  rowLE a b = true

instance : DecidableRel rowLEP := fun a b => by
  unfold rowLEP
  infer_instance

/-- The `ORDER BY` of the section queries, modelled by insertion sort (the
order is total; on rows with distinct ids it is antisymmetric, so the sorted
permutation is unique). -/
def sortRows (l : List Row) : List Row :=
  List.insertionSort rowLEP l

/-- The handler of `GET /api/sections/tree` after auth: `include_inactive` is honored only for
the teacher role; otherwise the query filters `is_active = 1`. The fetched rows
are ordered by `(order_index, id)` and handed to `buildSectionsTree`. -/
def sectionsTreeEndpoint (sections : List Row) (role : String) (includeInactiveQ : Bool) :
    List SectionNode :=
  buildSectionsTree
    (sortRows (if role == "teacher" && includeInactiveQ then sections
      else sections.filter (fun r => r.is_active == 1)))

/-- A record of the `GET /api/sections` response:
`{ id, name, parentId, orderIndex, isActive }`. -/
structure SectionOut where
  id : Int
  name : String
  parentId : Option Int
  orderIndex : Int
  isActive : Bool
  deriving DecidableEq

/-- The handler of `GET /api/sections` after auth: direct children of `parentId` (roots when
null or absent), filtered by `is_active = 1` unless a teacher requests inactive
rows, ordered by `(order_index, id)`. -/
def sectionsListEndpoint (sections : List Row) (role : String) (includeInactiveQ : Bool)
    (parentId : Option Int) : List SectionOut :=
  (sortRows (sections.filter (fun r =>
      ((role == "teacher" && includeInactiveQ) || r.is_active == 1) &&
        (match parentId with
         | none => r.parent_id == none
         | some pid => r.parent_id == some pid)))).map
    (fun r => ⟨r.id, r.name, r.parent_id, r.order_index, r.is_active != 0⟩)

/-- A parsed `PATCH /api/sections/:id` body; `none` means the field is absent.
For `parent_id`, `some none` is an explicit null (detach to root) and
`some (some pid)` re-parents under `pid` (the JSON-string parsing of
`parseNullableParentId` happens upstream of this model). -/
structure PatchBody where
  name : Option String
  parent_id : Option (Option Int)
  order_index : Option Int
  is_active : Option Bool
  deriving DecidableEq

/-- The `UPDATE sections SET ... WHERE id = ?` a successful PATCH performs on
the targeted row. -/
def applyPatch (r : Row) (body : PatchBody) (now : String) : Row :=
  { r with
    name := match body.name with
            | some nm => nm.trim
            | none => r.name,
    parent_id := match body.parent_id with
                 | some p => p
                 | none => r.parent_id,
    order_index := match body.order_index with
                   | some o => o
                   | none => r.order_index,
    is_active := match body.is_active with
                 | some b => if b then 1 else 0
                 | none => r.is_active,
    updated_at := now }

/-- The handler of `PATCH /api/sections/:id` after auth and role checks: the validation
sequence (section exists; non-empty name; no self-parenting; parent exists) and
the final UPDATE over a snapshot of the sections table. -/
def patchSection (sections : List Row) (sectionId : Int) (body : PatchBody) (now : String) :
    Except String (List Row) :=
  if !(sections.any (fun r => r.id == sectionId)) then .error "Section not found"
  else if (match body.name with
           | some nm => nm.trim == ""
           | none => false) then .error "Section name cannot be empty"
  else if body.parent_id == some (some sectionId) then
    .error "Section cannot be parent of itself"
  else if (match body.parent_id with
           | some (some pid) => !(sections.any (fun r => r.id == pid))
           | _ => false) then .error "Parent section not found"
  else if body.name == none && body.parent_id == none &&
      body.order_index == none && body.is_active == none then
    .error "No fields to update"
  else .ok (sections.map (fun r => if r.id == sectionId then applyPatch r body now else r))

/-- The handler of `DELETE /api/sections/:id` after auth and role checks:
`UPDATE sections SET is_active = 0, updated_at = ? WHERE id = ?`, answering 404
when no row matched. -/
def deleteSection (sections : List Row) (sectionId : Int) (now : String) :
    Except String (List Row) :=
  if sections.any (fun r => r.id == sectionId) then
    .ok (sections.map (fun r =>
      if r.id == sectionId then { r with is_active := 0, updated_at := now } else r))
  else .error "Section not found"

/-! ## Association-list map lemmas -/

/-- A well-formed index: distinct keys, and every entry's node carries the
entry's key as its id. `buildIndex` always produces this. -/
def KeysOK (idx : List (Int × TNode)) : Prop :=
  (idx.map Prod.fst).Nodup ∧ ∀ e ∈ idx, e.2.id = e.1

theorem mapHas_iff {idx : List (Int × TNode)} {k : Int} :
    mapHas idx k = true ↔ k ∈ idx.map Prod.fst := by
  simp [mapHas, List.any_eq_true, List.mem_map, beq_iff_eq]

theorem mapGet_isSome_iff {idx : List (Int × TNode)} {k : Int} :
    (mapGet idx k).isSome = true ↔ mapHas idx k = true := by
  simp [mapGet, mapHas, List.find?_isSome, List.any_eq_true]

theorem mapGet_mem {idx : List (Int × TNode)} {k : Int} {v : TNode}
    (h : mapGet idx k = some v) : (k, v) ∈ idx := by
  simp only [mapGet, Option.map_eq_some'] at h
  obtain ⟨e, he, hv⟩ := h
  have hmem := List.mem_of_find?_eq_some he
  have hk := List.find?_some he
  simp only [beq_iff_eq] at hk
  cases e
  simp_all

theorem mapGet_eq_some_of_mem {idx : List (Int × TNode)} {k : Int} {v : TNode}
    (hnd : (idx.map Prod.fst).Nodup) (h : (k, v) ∈ idx) : mapGet idx k = some v := by
  induction idx with
  | nil => simp at h
  | cons e rest ih =>
    simp only [List.map_cons, List.nodup_cons] at hnd
    rcases List.mem_cons.mp h with h | h
    · subst h
      simp [mapGet]
    · have hke : (e.1 == k) = false := by
        simp only [beq_eq_false_iff_ne, ne_eq]
        intro hek
        exact hnd.1 (hek ▸ (List.mem_map.mpr ⟨(k, v), h, rfl⟩))
      simp only [mapGet, List.find?_cons, hke]
      exact ih hnd.2 h

theorem mapGet_id {idx : List (Int × TNode)} {k : Int} {v : TNode}
    (hK : KeysOK idx) (h : mapGet idx k = some v) : v.id = k :=
  hK.2 (k, v) (mapGet_mem h)

theorem mapGet_key {idx : List (Int × TNode)} {k : Int} {v : TNode}
    (h : mapGet idx k = some v) : k ∈ idx.map Prod.fst :=
  List.mem_map.mpr ⟨(k, v), mapGet_mem h, rfl⟩

theorem mapGet_eq_none_of_not_has {idx : List (Int × TNode)} {k : Int}
    (h : ¬ mapHas idx k = true) : mapGet idx k = none := by
  rcases hg : mapGet idx k with _ | v
  · rfl
  · exact absurd (mapGet_isSome_iff.mp (by simp [hg])) h

theorem mapHas_of_mapGet_eq_some {idx : List (Int × TNode)} {k : Int} {v : TNode}
    (h : mapGet idx k = some v) : mapHas idx k = true :=
  mapGet_isSome_iff.mp (by simp [h])

theorem mapGet_exists_of_has {idx : List (Int × TNode)} {k : Int}
    (h : mapHas idx k = true) : ∃ v, mapGet idx k = some v := by
  have := mapGet_isSome_iff.mpr h
  rcases hg : mapGet idx k with _ | v
  · simp [hg] at this
  · exact ⟨v, rfl⟩

/-! ## `buildIndex` invariants -/

theorem mapSet_keys (m : List (Int × TNode)) (k : Int) (v : TNode) :
    (mapSet m k v).map Prod.fst =
      if m.any (fun p => p.1 == k) then m.map Prod.fst else m.map Prod.fst ++ [k] := by
  unfold mapSet
  split
  · rw [List.map_map]
    apply List.map_congr_left
    intro e _
    by_cases he : e.1 == k
    · simp only [Function.comp, he, if_pos]
      simp only [beq_iff_eq] at he
      exact he.symm
    · simp [Function.comp, he]
  · simp

theorem mapSet_keysOK {m : List (Int × TNode)} {k : Int} {v : TNode}
    (hnd : (m.map Prod.fst).Nodup) (hid : ∀ e ∈ m, e.2.id = e.1) (hv : v.id = k) :
    ((mapSet m k v).map Prod.fst).Nodup ∧ ∀ e ∈ mapSet m k v, e.2.id = e.1 := by
  constructor
  · rw [mapSet_keys]
    split
    · exact hnd
    · rename_i hany
      have : k ∉ m.map Prod.fst := by
        intro hk
        rcases List.mem_map.mp hk with ⟨e, he, hke⟩
        exact hany (List.any_eq_true.mpr ⟨e, he, by simp [hke]⟩)
      simp [List.nodup_append, hnd, this]
  · intro e he
    unfold mapSet at he
    split at he
    · rcases List.mem_map.mp he with ⟨e', he', hee⟩
      by_cases h' : e'.1 == k
      · simp only [h', if_pos] at hee
        subst hee; exact hv
      · simp only [h', if_neg, Bool.false_eq_true, not_false_iff] at hee
        subst hee; exact hid e' he'
    · rcases List.mem_append.mp he with h' | h'
      · exact hid e h'
      · simp only [List.mem_singleton] at h'
        subst h'; exact hv

theorem mapSet_mem_cases {m : List (Int × TNode)} {k : Int} {v : TNode} {e : Int × TNode}
    (h : e ∈ mapSet m k v) : e ∈ m ∨ e = (k, v) := by
  unfold mapSet at h
  split at h
  · rcases List.mem_map.mp h with ⟨e', he', hee⟩
    by_cases h' : e'.1 == k
    · simp only [h', if_pos] at hee
      exact Or.inr hee.symm
    · simp only [h', if_neg, Bool.false_eq_true, not_false_iff] at hee
      exact Or.inl (hee ▸ he')
  · rcases List.mem_append.mp h with h' | h'
    · exact Or.inl h'
    · simp only [List.mem_singleton] at h'
      exact Or.inr h'

theorem buildIndex_fold_keysOK (rows : List Row) :
    ∀ (m : List (Int × TNode)), (m.map Prod.fst).Nodup → (∀ e ∈ m, e.2.id = e.1) →
      ((rows.foldl (fun m r => mapSet m r.id (rowToNode r)) m).map Prod.fst).Nodup ∧
        ∀ e ∈ rows.foldl (fun m r => mapSet m r.id (rowToNode r)) m, e.2.id = e.1 := by
  induction rows with
  | nil => exact fun m hnd hid => ⟨hnd, hid⟩
  | cons r rows ih =>
    intro m hnd hid
    have step := mapSet_keysOK hnd hid (v := rowToNode r) (k := r.id) rfl
    exact ih _ step.1 step.2

theorem buildIndex_fold_link (rows all : List Row) (hsub : ∀ r ∈ rows, r ∈ all) :
    ∀ (m : List (Int × TNode)), (∀ e ∈ m, ∃ r ∈ all, r.id = e.1 ∧ e.2 = rowToNode r) →
      ∀ e ∈ rows.foldl (fun m r => mapSet m r.id (rowToNode r)) m,
        ∃ r ∈ all, r.id = e.1 ∧ e.2 = rowToNode r := by
  induction rows with
  | nil => exact fun m hm => hm
  | cons r rows ih =>
    intro m hm
    refine ih (fun r' hr' => hsub r' (List.mem_cons_of_mem _ hr')) _ ?_
    intro e he
    rcases mapSet_mem_cases he with h | h
    · exact hm e h
    · exact ⟨r, hsub r (List.mem_cons_self _ _), by simp [h]⟩

theorem buildIndex_keysOK (rows : List Row) : KeysOK (buildIndex rows) := by
  have := buildIndex_fold_keysOK rows [] (by simp) (by simp)
  exact ⟨this.1, this.2⟩

theorem buildIndex_link (rows : List Row) :
    ∀ e ∈ buildIndex rows, ∃ r ∈ rows, r.id = e.1 ∧ e.2 = rowToNode r :=
  buildIndex_fold_link rows rows (fun _ h => h) [] (by simp)

/-! ## Closed form of the assignment pass -/

theorem assignStep_eq (idx : List (Int × TNode)) (st : List Int × List (Int × List Int))
    (e : Int × TNode) :
    assignStep idx st e =
      match rpE idx e with
      | none => (st.1 ++ [e.1], st.2)
      | some pid => (st.1, st.2.map (fun q => if q.1 == pid then (q.1, q.2 ++ [e.1]) else q)) := by
  unfold assignStep rpE
  rcases e.2.parentId with _ | pid
  · rfl
  · by_cases h : mapHas idx pid = true <;> simp [h]

theorem assign_foldl (idx : List (Int × TNode)) (l : List (Int × TNode))
    (roots : List Int) (cs : List (Int × List Int)) :
    l.foldl (assignStep idx) (roots, cs) =
      (roots ++ (l.filter (fun e => rpE idx e == none)).map Prod.fst,
       cs.map (fun q => (q.1, q.2 ++ (l.filter (fun e => rpE idx e == some q.1)).map Prod.fst))) := by
  induction l generalizing roots cs with
  | nil =>
    simp only [List.foldl_nil, List.filter_nil, List.map_nil, List.append_nil]
    rw [show (cs.map fun q => (q.1, q.2)) = cs.map id by rfl, List.map_id]
  | cons e l ih =>
    rw [List.foldl_cons, assignStep_eq]
    rcases he : rpE idx e with _ | pid
    · simp only
      rw [ih]
      simp only [Prod.mk.injEq]
      constructor
      · rw [List.filter_cons_of_pos (by simp [he]), List.map_cons]
        simp
      · apply List.map_congr_left
        intro q _
        rw [List.filter_cons_of_neg (by simp [he])]
    · simp only
      rw [ih]
      simp only [Prod.mk.injEq]
      constructor
      · rw [List.filter_cons_of_neg (by simp [he])]
      · rw [List.map_map]
        apply List.map_congr_left
        intro q _
        by_cases hq : q.1 == pid
        · simp only [Function.comp, hq, if_pos]
          have hpos : (rpE idx e == some q.1) = true := by
            simp only [beq_iff_eq] at hq ⊢
            rw [he, hq]
          rw [List.filter_cons, hpos]
          simp
        · simp only [Function.comp, hq, if_neg, Bool.false_eq_true, not_false_iff]
          have hneg : (rpE idx e == some q.1) = false := by
            simp only [beq_eq_false_iff_ne, ne_eq, he]
            intro hc
            injection hc with hc
            simp [hc] at hq
          rw [List.filter_cons, hneg]
          simp

theorem assignAll_roots (idx : List (Int × TNode)) :
    (assignAll idx).1 = (idx.filter (fun e => rpE idx e == none)).map Prod.fst := by
  unfold assignAll
  rw [assign_foldl]
  simp

theorem assignAll_children (idx : List (Int × TNode)) :
    (assignAll idx).2 = idx.map (fun p =>
      (p.1, (idx.filter (fun e => rpE idx e == some p.1)).map Prod.fst)) := by
  unfold assignAll
  rw [assign_foldl]
  simp [List.map_map, Function.comp]

theorem rp_eq_of_get {idx : List (Int × TNode)} {x : Int} {nd : TNode}
    (hget : mapGet idx x = some nd) : rp idx x = rpE idx (x, nd) := by
  simp [rp, rpE, hget]

theorem rp_eq_none_of_get_none {idx : List (Int × TNode)} {x : Int}
    (hget : mapGet idx x = none) : rp idx x = none := by
  simp [rp, hget]

theorem rpE_eq_some_iff {idx : List (Int × TNode)} {e : Int × TNode} {pid : Int} :
    rpE idx e = some pid ↔ e.2.parentId = some pid ∧ mapHas idx pid = true := by
  unfold rpE
  rcases hpar : e.2.parentId with _ | q
  · simp
  · have hred : (match some q with
        | some pid => if mapHas idx pid = true then some pid else none
        | none => none) = (if mapHas idx q = true then some q else none) := rfl
    rw [hred]
    by_cases hh : mapHas idx q = true
    · rw [if_pos hh]
      constructor
      · intro h
        refine ⟨h, ?_⟩
        injection h with h
        exact h ▸ hh
      · rintro ⟨h1, _⟩
        exact h1
    · rw [if_neg hh]
      constructor
      · intro h
        exact absurd h (by simp)
      · rintro ⟨h1, h2⟩
        injection h1 with h1
        exact absurd (h1 ▸ h2) hh

theorem rpE_eq_none_iff {idx : List (Int × TNode)} {e : Int × TNode} :
    rpE idx e = none ↔
      e.2.parentId = none ∨ ∃ pid, e.2.parentId = some pid ∧ mapHas idx pid = false := by
  unfold rpE
  rcases hpar : e.2.parentId with _ | q
  · simp
  · by_cases hh : mapHas idx q = true
    · simp [hh]
    · simp [hh]

/-- The map `rp` at an entry's key agrees with the per-entry decision `rpE`, provided
the index has distinct keys. -/
theorem rp_eq_rpE {idx : List (Int × TNode)} (hK : KeysOK idx) {e : Int × TNode}
    (he : e ∈ idx) : rp idx e.1 = rpE idx e := by
  have hget : mapGet idx e.1 = some e.2 := mapGet_eq_some_of_mem hK.1 (by
    rcases e with ⟨k, v⟩; exact he)
  rw [rp_eq_of_get hget]

theorem childIdsOf_assign (idx : List (Int × TNode)) (p : Int) :
    childIdsOf (assignAll idx).2 p =
      (idx.filter (fun e => rpE idx e == some p)).map Prod.fst := by
  rw [childIdsOf, assignAll_children]
  rcases hfind : (idx.map (fun p =>
      (p.1, (idx.filter (fun e => rpE idx e == some p.1)).map Prod.fst))).find?
        (fun q => q.1 == p) with _ | q
  · -- no index entry has key `p`: the filter is empty as well
    simp only [hfind]
    rw [List.find?_eq_none] at hfind
    have : ∀ e ∈ idx, ¬(rpE idx e == some p) = true := by
      intro e he hc
      simp only [beq_iff_eq] at hc
      have hp : mapHas idx p = true := (rpE_eq_some_iff.mp hc).2
      rcases List.mem_map.mp (mapHas_iff.mp hp) with ⟨e', he', hke⟩
      exact hfind _ (List.mem_map.mpr ⟨e', he', rfl⟩) (by simp [hke])
    rw [List.filter_eq_nil_iff.mpr this]
    simp
  · simp only [hfind]
    have hmem := List.mem_of_find?_eq_some hfind
    have hkq := List.find?_some hfind
    rcases List.mem_map.mp hmem with ⟨e', _, hee⟩
    subst hee
    simp only [beq_iff_eq] at hkq
    rw [hkq]

/-! ## Membership characterizations of roots and children -/

theorem rp_some_keys {idx : List (Int × TNode)} {x p : Int}
    (h : rp idx x = some p) : x ∈ idx.map Prod.fst ∧ p ∈ idx.map Prod.fst := by
  rcases hget : mapGet idx x with _ | nd
  · rw [rp_eq_none_of_get_none hget] at h
    exact absurd h (by simp)
  · rw [rp_eq_of_get hget] at h
    exact ⟨mapGet_key hget, mapHas_iff.mp (rpE_eq_some_iff.mp h).2⟩

theorem mem_roots_iff {idx : List (Int × TNode)} (hK : KeysOK idx) {x : Int} :
    x ∈ (assignAll idx).1 ↔ x ∈ idx.map Prod.fst ∧ rp idx x = none := by
  rw [assignAll_roots]
  constructor
  · intro h
    rcases List.mem_map.mp h with ⟨e, he, hke⟩
    have hmem := List.mem_of_mem_filter he
    have hflt := List.of_mem_filter he
    simp only [beq_iff_eq] at hflt
    exact ⟨hke ▸ List.mem_map.mpr ⟨e, hmem, rfl⟩, hke ▸ (rp_eq_rpE hK hmem).trans hflt⟩
  · rintro ⟨hx, hrp⟩
    rcases List.mem_map.mp hx with ⟨e, he, hke⟩
    refine List.mem_map.mpr ⟨e, List.mem_filter.mpr ⟨he, ?_⟩, hke⟩
    simp only [beq_iff_eq]
    rw [← rp_eq_rpE hK he, hke, hrp]

theorem mem_childIds_iff {idx : List (Int × TNode)} (hK : KeysOK idx) {x p : Int} :
    x ∈ childIdsOf (assignAll idx).2 p ↔ x ∈ idx.map Prod.fst ∧ rp idx x = some p := by
  rw [childIdsOf_assign]
  constructor
  · intro h
    rcases List.mem_map.mp h with ⟨e, he, hke⟩
    have hmem := List.mem_of_mem_filter he
    have hflt := List.of_mem_filter he
    simp only [beq_iff_eq] at hflt
    exact ⟨hke ▸ List.mem_map.mpr ⟨e, hmem, rfl⟩, hke ▸ (rp_eq_rpE hK hmem).trans hflt⟩
  · rintro ⟨hx, hrp⟩
    rcases List.mem_map.mp hx with ⟨e, he, hke⟩
    refine List.mem_map.mpr ⟨e, List.mem_filter.mpr ⟨he, ?_⟩, hke⟩
    simp only [beq_iff_eq]
    rw [← rp_eq_rpE hK he, hke, hrp]

theorem roots_nodup {idx : List (Int × TNode)} (hK : KeysOK idx) :
    (assignAll idx).1.Nodup := by
  rw [assignAll_roots]
  exact ((List.filter_sublist idx).map Prod.fst).nodup hK.1

theorem childIds_nodup {idx : List (Int × TNode)} (hK : KeysOK idx) (p : Int) :
    (childIdsOf (assignAll idx).2 p).Nodup := by
  rw [childIdsOf_assign]
  exact ((List.filter_sublist idx).map Prod.fst).nodup hK.1

/-! ## Parent-chain iteration -/

theorem rpIter_zero (idx : List (Int × TNode)) (x : Int) : rpIter idx 0 x = some x := rfl

theorem rpIter_succ_of_rp_none {idx : List (Int × TNode)} {x : Int} (n : Nat)
    (h : rp idx x = none) : rpIter idx (n + 1) x = none := by
  simp [rpIter, h]

theorem rpIter_succ_of_rp_some {idx : List (Int × TNode)} {x p : Int} (n : Nat)
    (h : rp idx x = some p) : rpIter idx (n + 1) x = rpIter idx n p := by
  simp [rpIter, h]

theorem rpIter_add (idx : List (Int × TNode)) (m n : Nat) (x : Int) :
    rpIter idx (m + n) x =
      match rpIter idx m x with
      | none => none
      | some y => rpIter idx n y := by
  induction m generalizing x with
  | zero => simp [rpIter_zero]
  | succ m ih =>
    rcases h : rp idx x with _ | p
    · rw [show m + 1 + n = (m + n) + 1 by omega, rpIter_succ_of_rp_none _ h,
        rpIter_succ_of_rp_none _ h]
    · rw [show m + 1 + n = (m + n) + 1 by omega, rpIter_succ_of_rp_some _ h,
        rpIter_succ_of_rp_some _ h, ih]

theorem rpIter_none_mono {idx : List (Int × TNode)} {n : Nat} {x : Int}
    (h : rpIter idx n x = none) {m : Nat} (hm : n ≤ m) : rpIter idx m x = none := by
  rw [show m = n + (m - n) by omega, rpIter_add, h]

theorem rpIter_some_keys {idx : List (Int × TNode)} {n : Nat} {x y : Int}
    (hn : 0 < n) (h : rpIter idx n x = some y) : y ∈ idx.map Prod.fst := by
  induction n generalizing x with
  | zero => omega
  | succ n ih =>
    rcases hrp : rp idx x with _ | p
    · rw [rpIter_succ_of_rp_none _ hrp] at h
      exact absurd h (by simp)
    · rw [rpIter_succ_of_rp_some _ hrp] at h
      rcases Nat.eq_zero_or_pos n with h0 | h0
      · subst h0
        rw [rpIter_zero] at h
        injection h with h
        exact h ▸ (rp_some_keys hrp).2
      · exact ih h0 h

theorem termChain_of_rp_none {idx : List (Int × TNode)} {x : Int}
    (h : rp idx x = none) : TermChain idx x :=
  ⟨1, rpIter_succ_of_rp_none 0 h⟩

theorem termChain_cons {idx : List (Int × TNode)} {x p : Int}
    (h : rp idx x = some p) (hp : TermChain idx p) : TermChain idx x := by
  obtain ⟨n, hn⟩ := hp
  exact ⟨n + 1, (rpIter_succ_of_rp_some n h).trans hn⟩

theorem termChain_tail {idx : List (Int × TNode)} {x p : Int}
    (h : rp idx x = some p) (hx : TermChain idx x) : TermChain idx p := by
  obtain ⟨n, hn⟩ := hx
  rcases n with _ | n
  · exact absurd hn (by simp [rpIter_zero])
  · rw [rpIter_succ_of_rp_some _ h] at hn
    exact ⟨n, hn⟩

/-- A node on an `rp` loop has no terminating parent chain. -/
theorem no_termChain_of_loop {idx : List (Int × TNode)} {y : Int} {d : Nat}
    (hd : 0 < d) (hloop : rpIter idx d y = some y) : ¬ TermChain idx y := by
  rintro ⟨n, hn⟩
  have hmul : ∀ m : Nat, rpIter idx (m * d) y = some y := by
    intro m
    induction m with
    | zero => simp [rpIter_zero]
    | succ m ih =>
      rw [show (m + 1) * d = m * d + d by ring, rpIter_add, ih]
      exact hloop
  have hge : n ≤ n * d := Nat.le_mul_of_pos_right n hd
  have hnone : rpIter idx (n * d) y = none := rpIter_none_mono hn hge
  rw [hmul n] at hnone
  exact absurd hnone (by simp)

/-- The length of a terminating parent chain starting at an indexed node is at
most the number of indexed nodes (the chain never revisits a node). -/
theorem chain_bound {idx : List (Int × TNode)} {x : Int}
    (hx : x ∈ idx.map Prod.fst) (h : TermChain idx x) :
    Nat.find h ≤ idx.length := by
  set k := Nat.find h with hk
  by_contra hgt
  push_neg at hgt
  -- the iterates below `k` are distinct members of the key list
  have hsome : ∀ j < k, rpIter idx j x ≠ none := fun j hj => Nat.find_min h hj
  have hmaps : ∀ j ∈ Finset.range k, (rpIter idx j x).getD 0 ∈
      (idx.map Prod.fst).toFinset := by
    intro j hj
    rw [Finset.mem_range] at hj
    rcases hg : rpIter idx j x with _ | y
    · exact absurd hg (hsome j hj)
    · rcases Nat.eq_zero_or_pos j with h0 | h0
      · subst h0
        rw [rpIter_zero] at hg
        injection hg with hg
        simp only [Option.getD_some]
        exact List.mem_toFinset.mpr (hg ▸ hx)
      · simp only [Option.getD_some]
        exact List.mem_toFinset.mpr (rpIter_some_keys h0 hg)
  have key : ∀ j1 j2, j1 < j2 → j2 < k →
      (rpIter idx j1 x).getD 0 = (rpIter idx j2 x).getD 0 → False := by
    intro j1 j2 hlt hj2 heq
    rcases hg1 : rpIter idx j1 x with _ | y
    · exact (hsome j1 (by omega)) hg1
    rcases hg2 : rpIter idx j2 x with _ | y'
    · exact (hsome j2 hj2) hg2
    rw [hg1, hg2] at heq
    simp only [Option.getD_some] at heq
    subst heq
    have hloop : rpIter idx (j2 - j1) y = some y := by
      have h3 := rpIter_add idx j1 (j2 - j1) x
      rw [show j1 + (j2 - j1) = j2 by omega, hg1, hg2] at h3
      exact h3.symm
    have hterm : TermChain idx y := by
      refine ⟨k - j1, ?_⟩
      have h3 := rpIter_add idx j1 (k - j1) x
      rw [show j1 + (k - j1) = k by omega, hg1, Nat.find_spec h] at h3
      exact h3.symm
    exact no_termChain_of_loop (by omega) hloop hterm
  have hinj : Set.InjOn (fun j => (rpIter idx j x).getD 0) (Finset.range k) := by
    intro j1 hj1 j2 hj2 heq
    simp only [Finset.coe_range, Set.mem_Iio] at hj1 hj2
    rcases lt_trichotomy j1 j2 with hlt | hlt | hlt
    · exact (key j1 j2 hlt hj2 heq).elim
    · exact hlt
    · exact (key j2 j1 hlt hj1 heq.symm).elim
  have hcard := Finset.card_le_card_of_injOn _ hmaps hinj
  rw [Finset.card_range] at hcard
  have hle : (idx.map Prod.fst).toFinset.card ≤ (idx.map Prod.fst).length :=
    (idx.map Prod.fst).toFinset_card_le
  rw [List.length_map] at hle
  omega

/-! ## Materialization lemmas -/

theorem sortIds_perm (idx : List (Int × TNode)) (l : List Int) :
    List.Perm (sortIds idx l) l :=
  List.perm_insertionSort _ _

theorem mem_sortIds (idx : List (Int × TNode)) (l : List Int) {x : Int} :
    x ∈ sortIds idx l ↔ x ∈ l :=
  (sortIds_perm idx l).mem_iff

theorem forestIds_cons (n : SectionNode) (rest : List SectionNode) :
    forestIds (n :: rest) = forestIds [n] ++ forestIds rest := by
  rcases n with ⟨i, nm, p, o, act, children⟩
  simp [forestIds]

theorem mem_forestIds_map {α : Type} {x : Int} {l : List α} {g : α → SectionNode} :
    x ∈ forestIds (l.map g) ↔ ∃ c ∈ l, x ∈ forestIds [g c] := by
  induction l with
  | nil => simp [forestIds]
  | cons c l ih =>
    rw [List.map_cons, forestIds_cons, List.mem_append, ih]
    constructor
    · rintro (h | ⟨c', hc', hx⟩)
      · exact ⟨c, List.mem_cons_self _ _, h⟩
      · exact ⟨c', List.mem_cons_of_mem _ hc', hx⟩
    · rintro ⟨c', hc', hx⟩
      rcases List.mem_cons.mp hc' with rfl | hc'
      · exact Or.inl hx
      · exact Or.inr ⟨c', hc', hx⟩

theorem buildNode_zero_get {idx : List (Int × TNode)} {cs : List (Int × List Int)}
    {i : Int} {nd : TNode} (hget : mapGet idx i = some nd) :
    buildNode idx cs 0 i = .mk nd.id nd.name nd.parentId nd.orderIndex nd.isActive [] := by
  simp [buildNode, hget]

theorem buildNode_succ_get {idx : List (Int × TNode)} {cs : List (Int × List Int)}
    {i : Int} {nd : TNode} (fuel : Nat) (hget : mapGet idx i = some nd) :
    buildNode idx cs (fuel + 1) i =
      .mk nd.id nd.name nd.parentId nd.orderIndex nd.isActive
        ((sortIds idx (childIdsOf cs i)).map (buildNode idx cs fuel)) := by
  simp [buildNode, hget]

theorem forestIds_buildNode_zero {idx : List (Int × TNode)} {cs : List (Int × List Int)}
    (hK : KeysOK idx) {i : Int} {nd : TNode} (hget : mapGet idx i = some nd) :
    forestIds [buildNode idx cs 0 i] = [i] := by
  rw [buildNode_zero_get hget]
  simp [forestIds, mapGet_id hK hget]

theorem forestIds_buildNode_succ {idx : List (Int × TNode)} {cs : List (Int × List Int)}
    (hK : KeysOK idx) {i : Int} {nd : TNode} (fuel : Nat) (hget : mapGet idx i = some nd) :
    forestIds [buildNode idx cs (fuel + 1) i] =
      i :: forestIds ((sortIds idx (childIdsOf cs i)).map
        (buildNode idx cs fuel)) := by
  rw [buildNode_succ_get fuel hget]
  simp [forestIds, mapGet_id hK hget]

/-- Descent-to-membership: a node whose parent chain reaches `i` in `d < fuel`
steps is materialized inside `buildNode fuel i`. -/
theorem mem_buildNode_of_chain {idx : List (Int × TNode)} (hK : KeysOK idx) :
    ∀ (d fuel : Nat) (x i : Int), x ∈ idx.map Prod.fst →
      rpIter idx d x = some i → d < fuel →
      x ∈ forestIds [buildNode idx (assignAll idx).2 fuel i] := by
  intro d
  induction d with
  | zero =>
    intro fuel x i hx hiter hfuel
    rw [rpIter_zero] at hiter
    injection hiter with hiter
    subst hiter
    rcases fuel with _ | fuel
    · omega
    · rcases List.mem_map.mp hx with ⟨e, he, hke⟩
      have hget : mapGet idx x = some e.2 := by
        subst hke
        exact mapGet_eq_some_of_mem hK.1 (by rcases e with ⟨k, v⟩; exact he)
      rw [forestIds_buildNode_succ hK fuel hget]
      exact List.mem_cons_self _ _
  | succ d ih =>
    intro fuel x i hx hiter hfuel
    -- split the chain at its last step: x ⟶(d) y ⟶(1) i
    have hsplit := rpIter_add idx d 1 x
    rw [show d + 1 = d + 1 from rfl] at hsplit
    rcases hg : rpIter idx d x with _ | y
    · rw [hg] at hsplit
      rw [hiter] at hsplit
      exact absurd hsplit.symm (by simp)
    · rw [hg, hiter] at hsplit
      have hy : rp idx y = some i := by
        have h1 : rpIter idx 1 y = some i := hsplit.symm
        rcases hrp : rp idx y with _ | p
        · rw [rpIter_succ_of_rp_none 0 hrp] at h1
          exact absurd h1 (by simp)
        · rw [rpIter_succ_of_rp_some 0 hrp, rpIter_zero] at h1
          injection h1 with h1
          rw [h1]
      have hykey : y ∈ idx.map Prod.fst := (rp_some_keys hy).1
      have hchild : y ∈ childIdsOf (assignAll idx).2 i := (mem_childIds_iff hK).mpr ⟨hykey, hy⟩
      have hikey : i ∈ idx.map Prod.fst := (rp_some_keys hy).2
      rcases fuel with _ | fuel
      · omega
      · rcases List.mem_map.mp hikey with ⟨e, he, hke⟩
        have hget : mapGet idx i = some e.2 := by
          subst hke
          exact mapGet_eq_some_of_mem hK.1 (by rcases e with ⟨k, v⟩; exact he)
        rw [forestIds_buildNode_succ hK fuel hget]
        refine List.mem_cons_of_mem _ ?_
        refine mem_forestIds_map.mpr ⟨y, ?_, ?_⟩
        · exact (mem_sortIds _ _).mpr hchild
        · exact ih fuel x y hx hg (by omega)

/-- Membership-to-descent: every id materialized inside `buildNode fuel i` is
an indexed node whose parent chain reaches `i`. -/
theorem chain_of_mem_buildNode {idx : List (Int × TNode)} (hK : KeysOK idx) :
    ∀ (fuel : Nat) (i x : Int), i ∈ idx.map Prod.fst →
      x ∈ forestIds [buildNode idx (assignAll idx).2 fuel i] →
      x ∈ idx.map Prod.fst ∧ ∃ d, rpIter idx d x = some i := by
  intro fuel
  induction fuel with
  | zero =>
    intro i x hi hx
    rcases List.mem_map.mp hi with ⟨e, he, hke⟩
    have hget : mapGet idx i = some e.2 := by
      subst hke
      exact mapGet_eq_some_of_mem hK.1 (by rcases e with ⟨k, v⟩; exact he)
    rw [forestIds_buildNode_zero hK hget] at hx
    simp only [List.mem_singleton] at hx
    subst hx
    exact ⟨hi, 0, rpIter_zero idx _⟩
  | succ fuel ih =>
    intro i x hi hx
    rcases List.mem_map.mp hi with ⟨e, he, hke⟩
    have hget : mapGet idx i = some e.2 := by
      subst hke
      exact mapGet_eq_some_of_mem hK.1 (by rcases e with ⟨k, v⟩; exact he)
    rw [forestIds_buildNode_succ hK fuel hget] at hx
    rcases List.mem_cons.mp hx with rfl | hx
    · exact ⟨hi, 0, rpIter_zero idx x⟩
    · rcases mem_forestIds_map.mp hx with ⟨c, hc, hxc⟩
      have hc' : c ∈ childIdsOf (assignAll idx).2 i := (mem_sortIds _ _).mp hc
      have hcrp := (mem_childIds_iff hK).mp hc'
      obtain ⟨hxk, d, hd⟩ := ih c x hcrp.1 hxc
      refine ⟨hxk, d + 1, ?_⟩
      have h2 : rpIter idx 1 c = some i := by
        rw [rpIter_succ_of_rp_some 0 hcrp.2, rpIter_zero]
      have h3 := rpIter_add idx d 1 x
      rw [hd] at h3
      rw [h3]
      exact h2

/-! ## Uniqueness of materialized nodes -/

theorem chains_meet {idx : List (Int × TNode)} {x a b : Int} {d e : Nat}
    (hd : rpIter idx d x = some a) (he : rpIter idx e x = some b) (hde : d ≤ e) :
    rpIter idx (e - d) a = some b := by
  have h3 := rpIter_add idx d (e - d) x
  rw [show d + (e - d) = e by omega, hd] at h3
  have h4 : rpIter idx e x = rpIter idx (e - d) a := h3
  rw [← h4]
  exact he

theorem root_chains_unique {idx : List (Int × TNode)} {x a b : Int} {d e : Nat}
    (hra : rp idx a = none) (hrb : rp idx b = none)
    (hd : rpIter idx d x = some a) (he : rpIter idx e x = some b) : a = b ∧ d = e := by
  rcases lt_trichotomy d e with h | h | h
  · exfalso
    have hmeet := chains_meet hd he h.le
    rw [show e - d = (e - d - 1) + 1 by omega, rpIter_succ_of_rp_none _ hra] at hmeet
    exact absurd hmeet (by simp)
  · subst h
    rw [hd] at he
    injection he with he
    exact ⟨he, rfl⟩
  · exfalso
    have hmeet := chains_meet he hd h.le
    rw [show d - e = (d - e - 1) + 1 by omega, rpIter_succ_of_rp_none _ hrb] at hmeet
    exact absurd hmeet (by simp)

theorem chain_extend {idx : List (Int × TNode)} {x a i : Int} {d : Nat}
    (hd : rpIter idx d x = some a) (ha : rp idx a = some i) :
    rpIter idx (d + 1) x = some i := by
  have h2 : rpIter idx 1 a = some i := by
    rw [rpIter_succ_of_rp_some 0 ha, rpIter_zero]
  have h3 := rpIter_add idx d 1 x
  rw [hd] at h3
  rw [h3]
  exact h2

theorem sibling_chains_unique {idx : List (Int × TNode)} {i a b x : Int} {d e : Nat}
    (hterm : TermChain idx i) (hia : rp idx a = some i) (hib : rp idx b = some i)
    (hd : rpIter idx d x = some a) (he : rpIter idx e x = some b) : a = b ∧ d = e := by
  rcases lt_trichotomy d e with h | h | h
  · exfalso
    have hdi := chain_extend hd hia
    have hei := chain_extend he hib
    have hloop : rpIter idx (e - d) i = some i := by
      have := chains_meet hdi hei (by omega)
      rw [show e + 1 - (d + 1) = e - d by omega] at this
      exact this
    exact no_termChain_of_loop (by omega) hloop hterm
  · subst h
    rw [hd] at he
    injection he with he
    exact ⟨he, rfl⟩
  · exfalso
    have hdi := chain_extend hd hia
    have hei := chain_extend he hib
    have hloop : rpIter idx (d - e) i = some i := by
      have := chains_meet hei hdi (by omega)
      rw [show d + 1 - (e + 1) = d - e by omega] at this
      exact this
    exact no_termChain_of_loop (by omega) hloop hterm

theorem forestIds_map_nodup {l : List Int} {g : Int → SectionNode}
    (hnd : l.Nodup)
    (heach : ∀ c ∈ l, (forestIds [g c]).Nodup)
    (hdisj : ∀ a ∈ l, ∀ b ∈ l, a ≠ b →
      ∀ x, x ∈ forestIds [g a] → x ∈ forestIds [g b] → False) :
    (forestIds (l.map g)).Nodup := by
  induction l with
  | nil => simp [forestIds]
  | cons c l ih =>
    rw [List.map_cons, forestIds_cons]
    have hndl := List.nodup_cons.mp hnd
    refine List.Nodup.append (heach c (List.mem_cons_self _ _))
      (ih hndl.2 (fun c' h => heach _ (List.mem_cons_of_mem _ h))
        (fun a ha b hb hne => hdisj a (List.mem_cons_of_mem _ ha)
          b (List.mem_cons_of_mem _ hb) hne)) ?_
    intro x hx1 hx2
    rcases mem_forestIds_map.mp hx2 with ⟨b, hb, hxb⟩
    exact hdisj c (List.mem_cons_self _ _) b (List.mem_cons_of_mem _ hb)
      (fun hcb => hndl.1 (hcb ▸ hb)) x hx1 hxb

theorem buildNode_forestIds_nodup {idx : List (Int × TNode)} (hK : KeysOK idx) :
    ∀ (fuel : Nat) (i : Int), i ∈ idx.map Prod.fst → TermChain idx i →
      (forestIds [buildNode idx (assignAll idx).2 fuel i]).Nodup := by
  intro fuel
  induction fuel with
  | zero =>
    intro i hi _
    rcases List.mem_map.mp hi with ⟨e, he, hke⟩
    have hget : mapGet idx i = some e.2 := by
      subst hke
      exact mapGet_eq_some_of_mem hK.1 (by rcases e with ⟨k, v⟩; exact he)
    rw [forestIds_buildNode_zero hK hget]
    simp
  | succ fuel ih =>
    intro i hi hterm
    rcases List.mem_map.mp hi with ⟨e, he, hke⟩
    have hget : mapGet idx i = some e.2 := by
      subst hke
      exact mapGet_eq_some_of_mem hK.1 (by rcases e with ⟨k, v⟩; exact he)
    rw [forestIds_buildNode_succ hK fuel hget, List.nodup_cons]
    constructor
    · intro hmem
      rcases mem_forestIds_map.mp hmem with ⟨c, hc, hic⟩
      have hcrp := (mem_childIds_iff hK).mp ((mem_sortIds _ _).mp hc)
      obtain ⟨_, d, hd⟩ := chain_of_mem_buildNode hK fuel c i hcrp.1 hic
      exact no_termChain_of_loop (by omega) (chain_extend hd hcrp.2) hterm
    · refine forestIds_map_nodup ?_ ?_ ?_
      · exact ((sortIds_perm _ _).nodup_iff).mpr (childIds_nodup hK i)
      · intro c hc
        have hcrp := (mem_childIds_iff hK).mp ((mem_sortIds _ _).mp hc)
        exact ih c hcrp.1 (termChain_cons hcrp.2 hterm)
      · intro a ha b hb hne x hxa hxb
        have harp := (mem_childIds_iff hK).mp ((mem_sortIds _ _).mp ha)
        have hbrp := (mem_childIds_iff hK).mp ((mem_sortIds _ _).mp hb)
        obtain ⟨_, d, hd⟩ := chain_of_mem_buildNode hK fuel a x harp.1 hxa
        obtain ⟨_, e', he'⟩ := chain_of_mem_buildNode hK fuel b x hbrp.1 hxb
        exact hne (sibling_chains_unique hterm harp.2 hbrp.2 hd he').1

/-! ## The forest theoremhood of `buildSectionsTree` -/

theorem reach_imp_term {idx : List (Int × TNode)} (hK : KeysOK idx) {x : Int}
    (h : ReachF (assignAll idx).1 (assignAll idx).2 x) :
    x ∈ idx.map Prod.fst ∧ TermChain idx x := by
  induction h with
  | root hx =>
    have := (mem_roots_iff hK).mp hx
    exact ⟨this.1, termChain_of_rp_none this.2⟩
  | child _ hc ih =>
    have := (mem_childIds_iff hK).mp hc
    exact ⟨this.1, termChain_cons this.2 (ih.2)⟩

theorem term_imp_mem {rows : List Row} {x : Int}
    (hx : x ∈ (buildIndex rows).map Prod.fst) (h : TermChain (buildIndex rows) x) :
    x ∈ forestIds (buildSectionsTree rows) := by
  have hK := buildIndex_keysOK rows
  set idx := buildIndex rows with hidx
  set k := Nat.find h with hk
  have hkpos : 0 < k := by
    rcases Nat.eq_zero_or_pos k with h0 | h0
    · exfalso
      have := Nat.find_spec h
      rw [← hk, h0, rpIter_zero] at this
      exact absurd this (by simp)
    · exact h0
  have hprev : rpIter idx (k - 1) x ≠ none := Nat.find_min h (by omega)
  rcases hg : rpIter idx (k - 1) x with _ | r
  · exact absurd hg hprev
  have hrk : r ∈ idx.map Prod.fst := by
    rcases Nat.eq_zero_or_pos (k - 1) with h0 | h0
    · rw [h0, rpIter_zero] at hg
      injection hg with hg
      exact hg ▸ hx
    · exact rpIter_some_keys h0 hg
  have hroot : rp idx r = none := by
    rcases hrp : rp idx r with _ | p
    · rfl
    · exfalso
      have := chain_extend hg hrp
      rw [show k - 1 + 1 = k by omega] at this
      have hspec := Nat.find_spec h
      rw [← hk] at hspec
      rw [hspec] at this
      exact absurd this (by simp)
  have hbound : k ≤ idx.length := chain_bound hx h
  have hmem := mem_buildNode_of_chain hK (k - 1) idx.length x r hx hg (by omega)
  unfold buildSectionsTree
  rw [← hidx]
  refine mem_forestIds_map.mpr ⟨r, ?_, hmem⟩
  exact (mem_sortIds _ _).mpr ((mem_roots_iff hK).mpr ⟨hrk, hroot⟩)

theorem mem_imp_reach {rows : List Row} {x : Int}
    (h : x ∈ forestIds (buildSectionsTree rows)) :
    ReachF (assignAll (buildIndex rows)).1 (assignAll (buildIndex rows)).2 x := by
  have hK := buildIndex_keysOK rows
  unfold buildSectionsTree at h
  rcases mem_forestIds_map.mp h with ⟨r, hr, hxr⟩
  have hroot : r ∈ (assignAll (buildIndex rows)).1 := (mem_sortIds _ _).mp hr
  have hrk := ((mem_roots_iff hK).mp hroot).1
  obtain ⟨hxkey, d, hd⟩ := chain_of_mem_buildNode hK _ r x hrk hxr
  clear h hr hxr
  induction d generalizing x with
  | zero =>
    rw [rpIter_zero] at hd
    injection hd with hd
    exact hd ▸ ReachF.root hroot
  | succ d ih =>
    rcases hrp : rp (buildIndex rows) x with _ | p
    · rw [rpIter_succ_of_rp_none _ hrp] at hd
      exact absurd hd (by simp)
    · rw [rpIter_succ_of_rp_some _ hrp] at hd
      exact ReachF.child (ih (rp_some_keys hrp).2 hd)
        ((mem_childIds_iff hK).mpr ⟨hxkey, hrp⟩)

theorem buildTree_forestIds_nodup (rows : List Row) :
    (forestIds (buildSectionsTree rows)).Nodup := by
  have hK := buildIndex_keysOK rows
  unfold buildSectionsTree
  refine forestIds_map_nodup ?_ ?_ ?_
  · exact ((sortIds_perm _ _).nodup_iff).mpr (roots_nodup hK)
  · intro r hr
    have hroot := (mem_roots_iff hK).mp ((mem_sortIds _ _).mp hr)
    exact buildNode_forestIds_nodup hK _ r hroot.1 (termChain_of_rp_none hroot.2)
  · intro a ha b hb hne x hxa hxb
    have harp := (mem_roots_iff hK).mp ((mem_sortIds _ _).mp ha)
    have hbrp := (mem_roots_iff hK).mp ((mem_sortIds _ _).mp hb)
    obtain ⟨_, d, hd⟩ := chain_of_mem_buildNode hK _ a x harp.1 hxa
    obtain ⟨_, e', he'⟩ := chain_of_mem_buildNode hK _ b x hbrp.1 hxb
    exact hne (root_chains_unique harp.2 hbrp.2 hd he').1

theorem buildNode_id {idx : List (Int × TNode)} (hK : KeysOK idx)
    (cs : List (Int × List Int)) (fuel : Nat) (i : Int) :
    (buildNode idx cs fuel i).id = i := by
  rcases hget : mapGet idx i with _ | nd
  · rcases fuel with _ | fuel <;> simp [buildNode, hget, SectionNode.id]
  · rcases fuel with _ | fuel <;>
      simp [buildNode, hget, SectionNode.id, mapGet_id hK hget]

theorem buildSectionsTree_root_ids (rows : List Row) :
    (buildSectionsTree rows).map SectionNode.id =
      sortIds (buildIndex rows) (assignAll (buildIndex rows)).1 := by
  unfold buildSectionsTree
  rw [List.map_map]
  have : ∀ a ∈ sortIds (buildIndex rows) (assignAll (buildIndex rows)).1,
      (SectionNode.id ∘ buildNode (buildIndex rows) (assignAll (buildIndex rows)).2
        (buildIndex rows).length) a = id a := by
    intro a _
    exact buildNode_id (buildIndex_keysOK rows) _ _ a
  rw [List.map_congr_left this, List.map_id]

/-- C1: for every flat record set, `buildSectionsTree` yields a forest — the
materialized output lists every node exactly once (`Nodup`), its members are
exactly the ids reachable from the roots through the assigned children lists,
no id sits in the children list of two different parents, and no reachable node
is its own descendant (its parent chain never returns to it). -/
theorem buildSectionsTree_is_forest (rows : List Row) :
    (forestIds (buildSectionsTree rows)).Nodup ∧
    (∀ x, x ∈ forestIds (buildSectionsTree rows) ↔
      ReachF (assignAll (buildIndex rows)).1 (assignAll (buildIndex rows)).2 x) ∧
    (∀ p q x, x ∈ childIdsOf (assignAll (buildIndex rows)).2 p →
      x ∈ childIdsOf (assignAll (buildIndex rows)).2 q → p = q) ∧
    (∀ x, x ∈ forestIds (buildSectionsTree rows) →
      ∀ d, 0 < d → rpIter (buildIndex rows) d x ≠ some x) := by
  have hK := buildIndex_keysOK rows
  refine ⟨buildTree_forestIds_nodup rows, ?_, ?_, ?_⟩
  · intro x
    constructor
    · exact mem_imp_reach
    · intro h
      have := reach_imp_term hK h
      exact term_imp_mem this.1 this.2
  · intro p q x hp hq
    have h1 := ((mem_childIds_iff hK).mp hp).2
    have h2 := ((mem_childIds_iff hK).mp hq).2
    exact Option.some.inj (h1.symm.trans h2)
  · intro x hx d hd hloop
    have hterm := (reach_imp_term hK (mem_imp_reach hx)).2
    exact no_termChain_of_loop hd hloop hterm

/-- Witness for C1: on a concrete two-row table, node 2 (a child of root 1) is
reachable from the roots and therefore listed in the output forest. -/
theorem buildSectionsTree_is_forest_witness :
    2 ∈ forestIds (buildSectionsTree
      [⟨1, "A", none, 0, 1, "c", "u"⟩, ⟨2, "B", some 1, 0, 1, "c", "u"⟩]) :=
  ((buildSectionsTree_is_forest
    [⟨1, "A", none, 0, 1, "c", "u"⟩, ⟨2, "B", some 1, 0, 1, "c", "u"⟩]).2.1 2).mpr
    (@ReachF.child _ _ 1 2 (ReachF.root (by decide)) (by decide))

/-- An indexed node whose `parentId` resolves to no indexed parent surfaces at
the top level of the built forest. -/
theorem top_of_unresolved_parent (rows : List Row) (x : Int) (nd : TNode)
    (hget : mapGet (buildIndex rows) x = some nd)
    (h : nd.parentId = none ∨
      ∃ pid, nd.parentId = some pid ∧ mapHas (buildIndex rows) pid = false) :
    x ∈ (buildSectionsTree rows).map SectionNode.id := by
  have hK := buildIndex_keysOK rows
  have hrp : rp (buildIndex rows) x = none := by
    rw [rp_eq_of_get hget]
    apply rpE_eq_none_iff.mpr
    rcases h with h | ⟨pid, h1, h2⟩
    · exact Or.inl h
    · exact Or.inr ⟨pid, h1, h2⟩
  rw [buildSectionsTree_root_ids]
  exact (mem_sortIds _ _).mpr ((mem_roots_iff hK).mpr ⟨mapGet_key hget, hrp⟩)

/-- C6: `buildSectionsTree` is total (the embedding is a plain function — no
error path), and an indexed node whose `parentId` is null, or whose `parentId`
is absent from the index, is placed as a top-level root of the returned
forest. -/
theorem buildSectionsTree_roots_degrade (rows : List Row) (x : Int) (nd : TNode)
    (hget : mapGet (buildIndex rows) x = some nd)
    (h : nd.parentId = none ∨
      ∃ pid, nd.parentId = some pid ∧ mapHas (buildIndex rows) pid = false) :
    x ∈ (buildSectionsTree rows).map SectionNode.id :=
  top_of_unresolved_parent rows x nd hget h

/-- Witness for C6: a node with a dangling `parentId` (99 indexes nothing) and
a node with a null `parentId` both surface as top-level roots. -/
theorem buildSectionsTree_roots_degrade_witness :
    5 ∈ (buildSectionsTree [⟨5, "E", some 99, 3, 1, "c", "u"⟩]).map SectionNode.id ∧
    7 ∈ (buildSectionsTree [⟨7, "F", none, 0, 1, "c", "u"⟩]).map SectionNode.id :=
  ⟨buildSectionsTree_roots_degrade _ 5 (rowToNode ⟨5, "E", some 99, 3, 1, "c", "u"⟩) rfl
      (Or.inr ⟨99, rfl, rfl⟩),
    buildSectionsTree_roots_degrade _ 7 (rowToNode ⟨7, "F", none, 0, 1, "c", "u"⟩) rfl
      (Or.inl rfl)⟩

/-- C10: rows forming a `parentId` cycle (each row of the cycle names another
row of the cycle as parent, all indexed) are silently dropped: the build
terminates (the embedding is total) and no cycle member occurs in the output
forest, in the root list, or in the children list of any reachable node. -/
theorem buildSectionsTree_drops_cycles (rows : List Row) (S : List Int)
    (_hlen : 2 ≤ S.length)
    (hcyc : ∀ x ∈ S, x ∈ (buildIndex rows).map Prod.fst ∧
      ∃ p ∈ S, p ≠ x ∧ rp (buildIndex rows) x = some p) :
    ∀ x ∈ S, x ∉ forestIds (buildSectionsTree rows) ∧
      x ∉ (assignAll (buildIndex rows)).1 ∧
      ∀ p, ReachF (assignAll (buildIndex rows)).1 (assignAll (buildIndex rows)).2 p →
        x ∉ childIdsOf (assignAll (buildIndex rows)).2 p := by
  have hK := buildIndex_keysOK rows
  have hstay : ∀ x ∈ S, ∀ n : Nat, ∃ y ∈ S, rpIter (buildIndex rows) n x = some y := by
    intro x hx n
    induction n with
    | zero => exact ⟨x, hx, rpIter_zero _ _⟩
    | succ n ih =>
      obtain ⟨y, hy, hiter⟩ := ih
      obtain ⟨p, hp, _, hrp⟩ := (hcyc y hy).2
      exact ⟨p, hp, chain_extend hiter hrp⟩
  have hnoterm : ∀ x ∈ S, ¬ TermChain (buildIndex rows) x := by
    rintro x hx ⟨n, hn⟩
    obtain ⟨y, _, hy⟩ := hstay x hx n
    rw [hn] at hy
    exact absurd hy (by simp)
  intro x hx
  refine ⟨?_, ?_, ?_⟩
  · intro hmem
    exact hnoterm x hx (reach_imp_term hK (mem_imp_reach hmem)).2
  · intro hmem
    obtain ⟨p, _, _, hrp⟩ := (hcyc x hx).2
    rw [((mem_roots_iff hK).mp hmem).2] at hrp
    exact absurd hrp (by simp)
  · intro p hreach hmem
    exact hnoterm x hx (reach_imp_term hK (ReachF.child hreach hmem)).2

/-- Witness for C10: the two-row cycle 1 ⇄ 2 is dropped from the output. -/
theorem buildSectionsTree_drops_cycles_witness :
    1 ∉ forestIds (buildSectionsTree
      [⟨1, "A", some 2, 0, 1, "c", "u"⟩, ⟨2, "B", some 1, 0, 1, "c", "u"⟩]) :=
  (buildSectionsTree_drops_cycles
    [⟨1, "A", some 2, 0, 1, "c", "u"⟩, ⟨2, "B", some 1, 0, 1, "c", "u"⟩]
    [1, 2] (by decide)
    (by
      intro x hx
      rcases List.mem_cons.mp hx with rfl | hx
      · exact ⟨by decide, 2, by decide, by decide, by decide⟩
      · rcases List.mem_cons.mp hx with rfl | hx
        · exact ⟨by decide, 1, by decide, by decide, by decide⟩
        · simp at hx)
    1 (by decide)).1

/-! ## Sortedness of the built forest -/

theorem pairLE_trans (a b c : Int × Int) (h1 : pairLE a b) (h2 : pairLE b c) :
    pairLE a c := by
  simp only [pairLE, decide_eq_true_eq] at h1 h2 ⊢
  omega

theorem pairLE_total (a b : Int × Int) : pairLE a b || pairLE b a := by
  simp only [pairLE, Bool.or_eq_true, decide_eq_true_eq]
  omega

theorem keyLE_trans (idx : List (Int × TNode)) (a b c : Int)
    (h1 : keyLE idx a b) (h2 : keyLE idx b c) : keyLE idx a c :=
  pairLE_trans _ _ _ h1 h2

theorem keyLE_total (idx : List (Int × TNode)) (a b : Int) :
    keyLE idx a b || keyLE idx b a :=
  pairLE_total _ _

theorem sortIds_pairwise (idx : List (Int × TNode)) (l : List Int) :
    (sortIds idx l).Pairwise (keyLEP idx) := by
  haveI : IsTotal Int (keyLEP idx) := ⟨fun a b => by
    rcases Bool.or_eq_true_iff.mp (keyLE_total idx a b) with h | h
    · exact Or.inl h
    · exact Or.inr h⟩
  haveI : IsTrans Int (keyLEP idx) := ⟨fun a b c => keyLE_trans idx a b c⟩
  exact List.sorted_insertionSort (keyLEP idx) l

theorem keyOf_get {idx : List (Int × TNode)} {i : Int} {nd : TNode}
    (hget : mapGet idx i = some nd) : keyOf idx i = (nd.orderIndex, nd.id) := by
  simp [keyOf, hget]

theorem buildNode_orderIndex {idx : List (Int × TNode)} {cs : List (Int × List Int)}
    {i : Int} {nd : TNode} (fuel : Nat) (hget : mapGet idx i = some nd) :
    (buildNode idx cs fuel i).orderIndex = nd.orderIndex := by
  rcases fuel with _ | fuel <;> simp [buildNode, hget, SectionNode.orderIndex]

theorem forestSorted_nil : ForestSorted [] := by
  rw [ForestSorted]
  trivial

theorem forestSorted_iff (ns : List SectionNode) :
    ForestSorted ns ↔ ns.Pairwise keyLT ∧ ∀ n ∈ ns, ForestSorted n.children := by
  induction ns with
  | nil => simp [forestSorted_nil]
  | cons n rest ih =>
    rcases n with ⟨i, nm, p, o, act, children⟩
    rw [ForestSorted, List.pairwise_cons, ih]
    simp only [List.forall_mem_cons, SectionNode.children]
    tauto

theorem pairwise_keyLT_map {idx : List (Int × TNode)} (hK : KeysOK idx)
    (cs : List (Int × List Int)) (fuel : Nat) {l : List Int} (hnd : l.Nodup)
    (hsub : ∀ c ∈ l, c ∈ idx.map Prod.fst) :
    ((sortIds idx l).map (buildNode idx cs fuel)).Pairwise keyLT := by
  rw [List.pairwise_map]
  have hs : (sortIds idx l).Pairwise (keyLEP idx) := sortIds_pairwise idx l
  have hn : (sortIds idx l).Pairwise (fun a b => a ≠ b) :=
    ((sortIds_perm _ l).nodup_iff).mpr hnd
  refine (hs.and hn).imp_of_mem ?_
  intro a b ha hb hab
  have hak := hsub a ((mem_sortIds _ _).mp ha)
  have hbk := hsub b ((mem_sortIds _ _).mp hb)
  rcases List.mem_map.mp hak with ⟨ea, hea, hkea⟩
  rcases List.mem_map.mp hbk with ⟨eb, heb, hkeb⟩
  have hgeta : mapGet idx a = some ea.2 := by
    subst hkea
    exact mapGet_eq_some_of_mem hK.1 (by rcases ea with ⟨k, v⟩; exact hea)
  have hgetb : mapGet idx b = some eb.2 := by
    subst hkeb
    exact mapGet_eq_some_of_mem hK.1 (by rcases eb with ⟨k, v⟩; exact heb)
  have hle := hab.1
  have hne := hab.2
  unfold keyLEP keyLE at hle
  rw [keyOf_get hgeta, keyOf_get hgetb] at hle
  simp only [pairLE, decide_eq_true_eq] at hle
  have hida : ea.2.id = a := mapGet_id hK hgeta
  have hidb : eb.2.id = b := mapGet_id hK hgetb
  unfold keyLT
  rw [buildNode_orderIndex fuel hgeta, buildNode_orderIndex fuel hgetb,
    buildNode_id hK cs fuel a, buildNode_id hK cs fuel b]
  rw [hida, hidb] at hle
  rcases hle with h | ⟨h1, h2⟩
  · exact Or.inl h
  · exact Or.inr ⟨h1, lt_of_le_of_ne h2 hne⟩

theorem buildNode_children_zero {idx : List (Int × TNode)} {cs : List (Int × List Int)}
    (i : Int) : (buildNode idx cs 0 i).children = [] := by
  rcases hget : mapGet idx i with _ | nd <;> simp [buildNode, hget, SectionNode.children]

theorem forestSorted_buildNode_map {idx : List (Int × TNode)} (hK : KeysOK idx) :
    ∀ (fuel : Nat) (l : List Int), l.Nodup → (∀ c ∈ l, c ∈ idx.map Prod.fst) →
      ForestSorted ((sortIds idx l).map (buildNode idx (assignAll idx).2 fuel)) := by
  intro fuel
  induction fuel with
  | zero =>
    intro l hnd hsub
    rw [forestSorted_iff]
    refine ⟨pairwise_keyLT_map hK _ 0 hnd hsub, ?_⟩
    intro n hn
    rcases List.mem_map.mp hn with ⟨c, _, rfl⟩
    rw [buildNode_children_zero]
    exact forestSorted_nil
  | succ fuel ih =>
    intro l hnd hsub
    rw [forestSorted_iff]
    refine ⟨pairwise_keyLT_map hK _ (fuel + 1) hnd hsub, ?_⟩
    intro n hn
    rcases List.mem_map.mp hn with ⟨c, hc, rfl⟩
    have hck := hsub c ((mem_sortIds _ _).mp hc)
    rcases List.mem_map.mp hck with ⟨e, he, hke⟩
    have hget : mapGet idx c = some e.2 := by
      subst hke
      exact mapGet_eq_some_of_mem hK.1 (by rcases e with ⟨k, v⟩; exact he)
    rw [buildNode_succ_get fuel hget]
    simp only [SectionNode.children]
    exact ih (childIdsOf (assignAll idx).2 c) (childIds_nodup hK c)
      (fun d hd => ((mem_childIds_iff hK).mp hd).1)

/-- C4: in the forest returned by `buildSectionsTree`, every sibling group —
the root group and every children list at every depth — is strictly increasing
in `(orderIndex, id)` (ascending `orderIndex`, ties broken by ascending `id`),
and the function is deterministic: repeated calls on the same input produce the
identical forest. -/
theorem buildSectionsTree_sorted (rows : List Row) :
    ForestSorted (buildSectionsTree rows) ∧
      buildSectionsTree rows = buildSectionsTree rows := by
  have hK := buildIndex_keysOK rows
  refine ⟨?_, rfl⟩
  unfold buildSectionsTree
  exact forestSorted_buildNode_map hK _ _ (roots_nodup hK)
    (fun c hc => ((mem_roots_iff hK).mp hc).1)

/-! ## Filtering inactive rows before assembly (C2) -/

theorem buildIndex_eq_of_nodup {rows : List Row} (h : (rows.map Row.id).Nodup) :
    buildIndex rows = rows.map (fun r => (r.id, rowToNode r)) := by
  suffices hgen : ∀ (rows' : List Row) (m : List (Int × TNode)),
      (rows'.map Row.id).Nodup → (∀ r ∈ rows', mapHas m r.id = false) →
      rows'.foldl (fun m r => mapSet m r.id (rowToNode r)) m =
        m ++ rows'.map (fun r => (r.id, rowToNode r)) by
    have := hgen rows [] h (by intro r _; rfl)
    simpa [buildIndex] using this
  intro rows'
  induction rows' with
  | nil => intro m _ _; simp
  | cons r rows' ih =>
    intro m hnd hfresh
    rw [List.map_cons, List.nodup_cons] at hnd
    have hstep : mapSet m r.id (rowToNode r) = m ++ [(r.id, rowToNode r)] := by
      unfold mapSet
      rw [if_neg (by
        have := hfresh r (List.mem_cons_self _ _)
        unfold mapHas at this
        simp [this])]
    rw [List.foldl_cons, hstep, ih _ hnd.2 ?_]
    · simp
    · intro r' hr'
      have h1 := hfresh r' (List.mem_cons_of_mem _ hr')
      unfold mapHas at h1 ⊢
      rw [List.any_append]
      simp only [h1, Bool.false_or, List.any_cons, List.any_nil, Bool.or_false]
      simp only [beq_eq_false_iff_ne, ne_eq]
      intro hc
      exact hnd.1 (hc ▸ List.mem_map.mpr ⟨r', hr', rfl⟩)

theorem literal_keys (rows : List Row) :
    ((rows.map (fun r => (r.id, rowToNode r))).map Prod.fst) = rows.map Row.id := by
  rw [List.map_map]
  rfl

theorem filter_ids_nodup {rows : List Row} (h : (rows.map Row.id).Nodup) (p : Row → Bool) :
    (((rows.filter p).map Row.id)).Nodup :=
  h.sublist ((List.filter_sublist rows (p := p)).map _)

theorem mapGet_filter_subset {rows : List Row} (h : (rows.map Row.id).Nodup) (p : Row → Bool)
    {x : Int} {nd : TNode}
    (hget : mapGet (buildIndex (rows.filter p)) x = some nd) :
    mapGet (buildIndex rows) x = some nd := by
  rw [buildIndex_eq_of_nodup (filter_ids_nodup h p)] at hget
  rw [buildIndex_eq_of_nodup h]
  have hmem := mapGet_mem hget
  rcases List.mem_map.mp hmem with ⟨r, hr, hpair⟩
  refine mapGet_eq_some_of_mem ?_ (List.mem_map.mpr ⟨r, List.mem_of_mem_filter hr, hpair⟩)
  rw [literal_keys]
  exact h

theorem mapHas_filter_subset {rows : List Row} (h : (rows.map Row.id).Nodup)
    (p : Row → Bool) {x : Int}
    (hhas : mapHas (buildIndex (rows.filter p)) x = true) :
    mapHas (buildIndex rows) x = true := by
  rw [mapHas_iff, buildIndex_eq_of_nodup (filter_ids_nodup h p), literal_keys] at hhas
  rw [mapHas_iff, buildIndex_eq_of_nodup h, literal_keys]
  rcases List.mem_map.mp hhas with ⟨r, hr, hke⟩
  exact List.mem_map.mpr ⟨r, List.mem_of_mem_filter hr, hke⟩

theorem termChain_filter {rows : List Row} (h : (rows.map Row.id).Nodup) (p : Row → Bool) :
    ∀ (n : Nat) (x : Int), rpIter (buildIndex rows) n x = none →
      mapHas (buildIndex (rows.filter p)) x = true →
      TermChain (buildIndex (rows.filter p)) x := by
  intro n
  induction n with
  | zero =>
    intro x h0
    rw [rpIter_zero] at h0
    exact absurd h0 (by simp)
  | succ n ih =>
    intro x hiter hhas
    rcases hrpA : rp (buildIndex (rows.filter p)) x with _ | pid
    · exact termChain_of_rp_none hrpA
    · obtain ⟨nd, hgetA⟩ := mapGet_exists_of_has hhas
      have hrpA' : rpE (buildIndex (rows.filter p)) (x, nd) = some pid := by
        rw [← rp_eq_of_get hgetA]
        exact hrpA
      obtain ⟨hpar, hhasA⟩ := rpE_eq_some_iff.mp hrpA'
      have hgetF : mapGet (buildIndex rows) x = some nd := mapGet_filter_subset h p hgetA
      have hhasF : mapHas (buildIndex rows) pid = true := mapHas_filter_subset h p hhasA
      have hrpF : rp (buildIndex rows) x = some pid := by
        rw [rp_eq_of_get hgetF]
        exact rpE_eq_some_iff.mpr ⟨hpar, hhasF⟩
      rw [rpIter_succ_of_rp_some n hrpF] at hiter
      exact termChain_cons hrpA (ih pid hiter hhasA)

/-- C2: for record sets with unique ids (the data model's `id` is unique),
building with `includeInactive = false` never removes an active node that the
unfiltered build returns, and an active node whose declared parent is filtered
out (inactive, hence absent from the index) surfaces as a top-level root of the
filtered forest rather than being dropped. -/
theorem buildTree_excluding_inactive (rows : List Row)
    (hnd : (rows.map Row.id).Nodup) :
    (∀ x, (∃ r ∈ rows, r.id = x ∧ r.is_active = 1) →
      x ∈ forestIds (buildTree rows true) → x ∈ forestIds (buildTree rows false)) ∧
    (∀ r ∈ rows, r.is_active = 1 → ∀ pid, r.parent_id = some pid →
      (∀ r2 ∈ rows, r2.id = pid → ¬ r2.is_active = 1) →
      r.id ∈ (buildTree rows false).map SectionNode.id) := by
  have hfull : buildTree rows true = buildSectionsTree rows := by simp [buildTree]
  have hfilt : buildTree rows false =
      buildSectionsTree (rows.filter (fun r => r.is_active == 1)) := by simp [buildTree]
  constructor
  · intro x hactive hmem
    rw [hfull] at hmem
    rw [hfilt]
    obtain ⟨r, hr, hid, hact⟩ := hactive
    have hterm := (reach_imp_term (buildIndex_keysOK rows) (mem_imp_reach hmem)).2
    obtain ⟨n, hn⟩ := hterm
    have hrA : r ∈ rows.filter (fun r => r.is_active == 1) :=
      List.mem_filter.mpr ⟨hr, by simp [hact]⟩
    have hhasA : mapHas (buildIndex (rows.filter (fun r => r.is_active == 1))) x = true := by
      rw [mapHas_iff, buildIndex_eq_of_nodup (filter_ids_nodup hnd _), literal_keys]
      exact List.mem_map.mpr ⟨r, hrA, hid⟩
    have htermA := termChain_filter hnd _ n x hn hhasA
    exact term_imp_mem (mapHas_iff.mp hhasA) htermA
  · intro r hr hact pid hpar horph
    rw [hfilt]
    have hrA : r ∈ rows.filter (fun r => r.is_active == 1) :=
      List.mem_filter.mpr ⟨hr, by simp [hact]⟩
    have hgetA : mapGet (buildIndex (rows.filter (fun r => r.is_active == 1))) r.id =
        some (rowToNode r) := by
      rw [buildIndex_eq_of_nodup (filter_ids_nodup hnd _)]
      refine mapGet_eq_some_of_mem ?_ (List.mem_map.mpr ⟨r, hrA, rfl⟩)
      rw [literal_keys]
      exact filter_ids_nodup hnd _
    refine top_of_unresolved_parent _ r.id (rowToNode r) hgetA (Or.inr ⟨pid, ?_, ?_⟩)
    · simpa [rowToNode] using hpar
    · by_contra hc
      rw [Bool.not_eq_false] at hc
      rw [mapHas_iff, buildIndex_eq_of_nodup (filter_ids_nodup hnd _), literal_keys] at hc
      rcases List.mem_map.mp hc with ⟨r2, hr2, hid2⟩
      have hsplit := List.mem_filter.mp hr2
      exact horph r2 hsplit.1 hid2 (by simpa using hsplit.2)

/-- Witness for C2: on the spec's scenario rows, the active child (id 2) kept
by the filtered build; and an active child of an inactive parent promoted to a
top-level root. -/
theorem buildTree_excluding_inactive_witness :
    2 ∈ forestIds (buildTree
      [⟨1, "Grammar", none, 0, 1, "c", "u"⟩, ⟨2, "Tenses", some 1, 0, 1, "c", "u"⟩,
        ⟨3, "Vocabulary", none, 1, 0, "c", "u"⟩] false) ∧
    2 ∈ (buildTree [⟨1, "P", none, 0, 0, "c", "u"⟩, ⟨2, "C", some 1, 0, 1, "c", "u"⟩]
      false).map SectionNode.id :=
  ⟨(buildTree_excluding_inactive
      [⟨1, "Grammar", none, 0, 1, "c", "u"⟩, ⟨2, "Tenses", some 1, 0, 1, "c", "u"⟩,
        ⟨3, "Vocabulary", none, 1, 0, "c", "u"⟩] (by decide)).1 2
      ⟨⟨2, "Tenses", some 1, 0, 1, "c", "u"⟩, by decide, rfl, rfl⟩
      (term_imp_mem (by decide) ⟨2, rfl⟩),
    (buildTree_excluding_inactive
      [⟨1, "P", none, 0, 0, "c", "u"⟩, ⟨2, "C", some 1, 0, 1, "c", "u"⟩] (by decide)).2
      ⟨2, "C", some 1, 0, 1, "c", "u"⟩ (by decide) rfl 1 rfl (by decide)⟩

/-! ## Flatten claims -/

/-- C3: `flattenSections` with its default arguments equals the spec-level
pre-order traversal — visit each node before its children, children in sibling
order — where every entry carries the node's `id` and `isActive` unchanged and
a `name` equal to the original name prefixed by two spaces per depth level
(`flattenSpec` materializes the depth; the client entry is that record with
the depth projected away). -/
theorem flattenSections_is_preorder (forest : List SectionNode) :
    flattenSectionsMain forest = (flattenSpec forest 0).map FlatEntry.dropDepth := by
  rw [flattenSectionsMain, flattenSections_eq_spec]
  simp

/-- C5: flatten of the empty forest is empty; flatten of one childless root is
a single entry at depth 0 with no indentation (the name unchanged); the
traversal visits children at exactly the parent's depth plus one and resumes
at the parent's depth for the following siblings; and the client flatten is
this traversal with depth projected away. -/
theorem flattenSections_depth_behavior :
    flattenSectionsMain [] = [] ∧
    (∀ (i : Int) (nm : String) (p : Option Int) (o : Int) (act : Bool),
      flattenSectionsMain [.mk i nm p o act []] = [⟨i, nm, act⟩]) ∧
    (∀ (n : SectionNode) (rest : List SectionNode) (d : Nat),
      flattenSpec (n :: rest) d =
        ⟨n.id, indentStr d ++ n.name, n.isActive, d⟩ ::
          (flattenSpec n.children (d + 1) ++ flattenSpec rest d)) ∧
    (∀ forest, flattenSectionsMain forest =
      (flattenSpec forest 0).map FlatEntry.dropDepth) := by
  refine ⟨by simp [flattenSectionsMain, flattenSections], ?_, ?_, ?_⟩
  · intro i nm p o act
    simp only [flattenSectionsMain, flattenSections, List.nil_append]
    rw [show indentStr 0 ++ nm = nm from rfl]
  · intro n rest d
    rcases n with ⟨i, nm, p, o, act, children⟩
    simp [flattenSpec, SectionNode.id, SectionNode.name, SectionNode.isActive,
      SectionNode.children]
  · intro forest
    rw [flattenSectionsMain, flattenSections_eq_spec]
    simp

/-! ## Endpoint visibility (C8) -/

/-- C8: whenever the caller is not a teacher requesting inactive rows — in
particular for every learner, whatever `include_inactive` they send — the tree
endpoint returns only nodes backed by an active row, the child-list endpoint
returns only entries with `isActive = true`, and both endpoints' outputs are
unchanged if the inactive rows are removed from the table: the learner-visible
output is independent of the inactive rows. -/
theorem endpoints_hide_inactive (sections : List Row) (role : String) (q : Bool)
    (hcond : (role == "teacher" && q) = false) :
    (∀ x, x ∈ forestIds (sectionsTreeEndpoint sections role q) →
      ∃ r ∈ sections, r.id = x ∧ r.is_active = 1) ∧
    (∀ pid e, e ∈ sectionsListEndpoint sections role q pid → e.isActive = true) ∧
    sectionsTreeEndpoint sections role q =
      sectionsTreeEndpoint (sections.filter (fun r => r.is_active == 1)) role q ∧
    (∀ pid, sectionsListEndpoint sections role q pid =
      sectionsListEndpoint (sections.filter (fun r => r.is_active == 1)) role q pid) := by
  have hP : ∀ l : List Row, (l.filter (fun r => r.is_active == 1)).filter
      (fun r => r.is_active == 1) = l.filter (fun r => r.is_active == 1) := by
    intro l
    rw [List.filter_filter]
    exact List.filter_congr (fun r _ => by by_cases h : r.is_active == 1 <;> simp [h])
  refine ⟨?_, ?_, ?_, ?_⟩
  · intro x hx
    simp only [sectionsTreeEndpoint, hcond, Bool.false_eq_true, if_neg,
      not_false_iff] at hx
    have hkey := (reach_imp_term (buildIndex_keysOK _) (mem_imp_reach hx)).1
    rcases List.mem_map.mp hkey with ⟨e, he, hke⟩
    rcases buildIndex_link _ e he with ⟨r, hr, hid, _⟩
    have hr2 := (List.perm_insertionSort rowLEP _).subset hr
    have hr3 := List.mem_filter.mp hr2
    exact ⟨r, hr3.1, by rw [hid, hke], by simpa using hr3.2⟩
  · intro pid e he
    simp only [sectionsListEndpoint, hcond, Bool.false_or] at he
    rcases List.mem_map.mp he with ⟨r, hr, hre⟩
    have hr2 := (List.perm_insertionSort rowLEP _).subset hr
    have hr3 := List.mem_filter.mp hr2
    have hact : r.is_active = 1 := by
      have := hr3.2
      simp only [Bool.and_eq_true, beq_iff_eq] at this
      exact this.1
    rw [← hre]
    simp [SectionOut.isActive, hact]
  · simp only [sectionsTreeEndpoint, hcond, Bool.false_eq_true, if_neg, not_false_iff]
    rw [hP]
  · intro pid
    simp only [sectionsListEndpoint, hcond, Bool.false_or]
    rw [List.filter_filter]
    congr 1
    congr 1
    exact List.filter_congr (fun r _ => by
      by_cases h : r.is_active == 1 <;> simp [h, Bool.and_comm])

/-- Witness for C8: a learner (`role = "student"`) requesting
`include_inactive = 1` still sees only active entries in the child list, and
the tree output equals the one computed from the active rows alone. -/
theorem endpoints_hide_inactive_witness :
    (((("student" : String) == "teacher") && true) = false) ∧
    (∀ pid e, e ∈ sectionsListEndpoint
      [⟨1, "A", none, 0, 1, "c", "u"⟩, ⟨2, "B", none, 1, 0, "c", "u"⟩]
      "student" true pid → e.isActive = true) ∧
    sectionsTreeEndpoint [⟨1, "A", none, 0, 1, "c", "u"⟩, ⟨2, "B", none, 1, 0, "c", "u"⟩]
        "student" true =
      sectionsTreeEndpoint ([⟨1, "A", none, 0, 1, "c", "u"⟩,
        ⟨2, "B", none, 1, 0, "c", "u"⟩].filter (fun r => r.is_active == 1)) "student" true :=
  ⟨by decide,
    (endpoints_hide_inactive
      [⟨1, "A", none, 0, 1, "c", "u"⟩, ⟨2, "B", none, 1, 0, "c", "u"⟩]
      "student" true (by decide)).2.1,
    (endpoints_hide_inactive
      [⟨1, "A", none, 0, 1, "c", "u"⟩, ⟨2, "B", none, 1, 0, "c", "u"⟩]
      "student" true (by decide)).2.2.1⟩

/-! ## PATCH validation (C7) -/

/-- Counterexample to C7 as stated: the PATCH validation only rejects direct
self-parenting. On the table `{1 root, 2 child of 1}`, re-parenting section 1
under its own descendant 2 passes every check and is accepted — and in the
updated table node 1's parent chain never terminates (a 2-cycle `1 ⇄ 2`), so
the parent relation no longer forms a forest. -/
theorem patchSection_cycle_counterexample :
    patchSection [⟨1, "A", none, 0, 1, "c", "u"⟩, ⟨2, "B", some 1, 0, 1, "c", "u"⟩] 1
        ⟨none, some (some 2), none, none⟩ "t2" =
      .ok [⟨1, "A", some 2, 0, 1, "c", "t2"⟩, ⟨2, "B", some 1, 0, 1, "c", "u"⟩] ∧
    ¬ TermChain (buildIndex
      [⟨1, "A", some 2, 0, 1, "c", "t2"⟩, ⟨2, "B", some 1, 0, 1, "c", "u"⟩]) 1 := by
  constructor
  · rfl
  · rintro ⟨n, hn⟩
    have hrp1 : rp (buildIndex
        [⟨1, "A", some 2, 0, 1, "c", "t2"⟩, ⟨2, "B", some 1, 0, 1, "c", "u"⟩]) 1 =
        some 2 := by decide
    have hrp2 : rp (buildIndex
        [⟨1, "A", some 2, 0, 1, "c", "t2"⟩, ⟨2, "B", some 1, 0, 1, "c", "u"⟩]) 2 =
        some 1 := by decide
    have hnever : ∀ m : Nat,
        rpIter (buildIndex
          [⟨1, "A", some 2, 0, 1, "c", "t2"⟩, ⟨2, "B", some 1, 0, 1, "c", "u"⟩]) m 1 ≠ none ∧
        rpIter (buildIndex
          [⟨1, "A", some 2, 0, 1, "c", "t2"⟩, ⟨2, "B", some 1, 0, 1, "c", "u"⟩]) m 2 ≠ none := by
      intro m
      induction m with
      | zero => exact ⟨by simp [rpIter_zero], by simp [rpIter_zero]⟩
      | succ m ih =>
        constructor
        · rw [rpIter_succ_of_rp_some m hrp1]
          exact ih.2
        · rw [rpIter_succ_of_rp_some m hrp2]
          exact ih.1
    exact (hnever n).1 hn

/-- C7 (amended): the PATCH endpoint rejects a direct self-parent assignment —
an accepted update never carries `parent_id` equal to the section's own id,
and with the section present and the name field absent a self-parent body is
answered with the self-parent error — and an accepted non-null re-parenting
names an existing section distinct from the target. Acceptance does not,
however, guarantee the parent relation stays acyclic (see the
counterexample). -/
theorem patchSection_self_parent_rejected (sections : List Row) (sectionId : Int)
    (body : PatchBody) (now : String) :
    (∀ t, patchSection sections sectionId body now = Except.ok t →
      body.parent_id ≠ some (some sectionId) ∧
      ∀ pid, body.parent_id = some (some pid) →
        pid ≠ sectionId ∧ sections.any (fun r => r.id == pid) = true) ∧
    (sections.any (fun r => r.id == sectionId) = true →
      body.name = none →
      body.parent_id = some (some sectionId) →
      patchSection sections sectionId body now =
        Except.error "Section cannot be parent of itself") := by
  constructor
  · intro t hok
    unfold patchSection at hok
    split at hok
    · exact absurd hok (by simp)
    split at hok
    · exact absurd hok (by simp)
    split at hok
    · exact absurd hok (by simp)
    split at hok
    · exact absurd hok (by simp)
    · rename_i hexists hname hself hpar
      constructor
      · intro hc
        exact hself (by rw [hc]; simp)
      · intro pid hpid
        constructor
        · intro hc
          exact hself (by rw [hpid, hc]; simp)
        · have hpar' := hpar
          simp only [hpid] at hpar'
          simpa using hpar'
  · intro hany hname hself
    unfold patchSection
    rw [hname, hself]
    simp [hany]

/-- Witness for the amended C7: on a one-row table, a PATCH setting section 1's
parent to itself is answered with the self-parent error; and an accepted
re-parenting (section 2 under 1) indeed names an existing, distinct parent. -/
theorem patchSection_self_parent_rejected_witness :
    patchSection [⟨1, "A", none, 0, 1, "c", "u"⟩] 1 ⟨none, some (some 1), none, none⟩ "t" =
      Except.error "Section cannot be parent of itself" ∧
    ((2 : Int) ≠ 1 ∧ ([⟨1, "A", none, 0, 1, "c", "u"⟩,
      ⟨2, "B", none, 1, 1, "c", "u"⟩] : List Row).any (fun r => r.id == 2) = true) :=
  ⟨(patchSection_self_parent_rejected [⟨1, "A", none, 0, 1, "c", "u"⟩] 1
      ⟨none, some (some 1), none, none⟩ "t").2 (by decide) rfl rfl,
    ((patchSection_self_parent_rejected
      [⟨1, "A", none, 0, 1, "c", "u"⟩, ⟨2, "B", none, 1, 1, "c", "u"⟩] 1
      ⟨none, some (some 2), none, none⟩ "t").1
      [⟨1, "A", (some 2 : Option Int), 0, 1, "c", "t"⟩,
        ⟨2, "B", none, 1, 1, "c", "u"⟩] rfl).2 2 rfl⟩

/-! ## Soft delete (C9) -/

/-- C9: deleting a section never removes a row (the table keeps its length and
positions); the targeted row keeps its id, name, parent, order and creation
time, and only gets `is_active = 0` and a refreshed `updated_at`; every other
row — in particular every child of the deleted section — is entirely
unchanged, so deactivation does not cascade. A delete of a non-existent id is
answered 404 with no update. -/
theorem deleteSection_frame (sections : List Row) (sectionId : Int) (now : String) :
    ((∃ r ∈ sections, r.id = sectionId) →
      ∃ t, deleteSection sections sectionId now = Except.ok t ∧
        t.length = sections.length ∧
        ∀ (i : Nat) (r r' : Row), sections[i]? = some r → t[i]? = some r' →
          r'.id = r.id ∧ r'.name = r.name ∧ r'.parent_id = r.parent_id ∧
          r'.order_index = r.order_index ∧ r'.created_at = r.created_at ∧
          (r.id = sectionId → r'.is_active = 0 ∧ r'.updated_at = now) ∧
          (¬ r.id = sectionId → r' = r)) ∧
    (¬ (∃ r ∈ sections, r.id = sectionId) →
      deleteSection sections sectionId now = Except.error "Section not found") := by
  constructor
  · intro hex
    have hany : sections.any (fun r => r.id == sectionId) = true := by
      rw [List.any_eq_true]
      obtain ⟨r, hr, hid⟩ := hex
      exact ⟨r, hr, by simp [hid]⟩
    refine ⟨sections.map (fun r =>
      if r.id == sectionId then { r with is_active := 0, updated_at := now } else r),
      ?_, by simp, ?_⟩
    · unfold deleteSection
      rw [if_pos hany]
    · intro i r r' hscan htmap
      rw [List.getElem?_map, hscan] at htmap
      simp only [Option.map_some'] at htmap
      injection htmap with htmap
      subst htmap
      by_cases hid : r.id = sectionId
      · simp [hid]
      · simp [hid]
  · intro hnone
    have hany : sections.any (fun r => r.id == sectionId) = false := by
      rcases h : sections.any (fun r => r.id == sectionId) with _ | _
      · rfl
      · rw [List.any_eq_true] at h
        obtain ⟨r, hr, hid⟩ := h
        exact absurd ⟨r, hr, by simpa using hid⟩ hnone
    simp [deleteSection, hany]

/-- Witness for C9: deleting section 1 in a two-row table (2 is a child of 1)
leaves the table length and the child row untouched. -/
theorem deleteSection_frame_witness :
    (∃ r ∈ [⟨1, "P", none, 0, 1, "c", "u"⟩, (⟨2, "C", some 1, 0, 1, "c", "u"⟩ : Row)],
      r.id = 1) ∧
    (∃ t, deleteSection [⟨1, "P", none, 0, 1, "c", "u"⟩, ⟨2, "C", some 1, 0, 1, "c", "u"⟩]
        1 "t2" = Except.ok t ∧
      t.length = 2 ∧
      ∀ (i : Nat) (r r' : Row),
        [⟨1, "P", none, 0, 1, "c", "u"⟩, (⟨2, "C", some 1, 0, 1, "c", "u"⟩ : Row)][i]? =
          some r → t[i]? = some r' →
        r'.id = r.id ∧ r'.name = r.name ∧ r'.parent_id = r.parent_id ∧
        r'.order_index = r.order_index ∧ r'.created_at = r.created_at ∧
        (r.id = 1 → r'.is_active = 0 ∧ r'.updated_at = "t2") ∧
        (¬ r.id = 1 → r' = r)) :=
  ⟨⟨⟨1, "P", none, 0, 1, "c", "u"⟩, by decide, rfl⟩,
    (deleteSection_frame [⟨1, "P", none, 0, 1, "c", "u"⟩, ⟨2, "C", some 1, 0, 1, "c", "u"⟩]
      1 "t2").1 ⟨⟨1, "P", none, 0, 1, "c", "u"⟩, by decide, rfl⟩⟩

end BukvaYou
